import Mathlib

/-!
# Verification of the silverlake hierarchical task store

A shallow embedding of `taskManager.js`: the task record arena backed by a
keyed object store, the create/update/delete/restore operations with their
cascading effects, the bounded undo/redo history, and the family-closure
filter.  IndexedDB's `get` returns a structured clone of the stored record,
so reads are modelled as immutable values: later writes to the store do not
affect a previously fetched snapshot, and the places where the source saves
a stale snapshot back are reproduced exactly.  Unbounded loops over the
parent chain or the child tree are modelled with explicit fuel; every public
entry point passes fuel larger than the store size, which makes the model
agree with the source whenever the source terminates.  Errors are modelled
as `Except` values whose error case carries the store as the exception left
it (the source mutates the store in place before throwing).
-/

namespace Silverlake

/-- Task status, one of the four values used by the source. -/
inductive Status where
  | NotStarted
  | InProgress
  | Blocked
  | Completed
deriving DecidableEq, Repr

/-- Task priority; a task record stores `Option Priority`, where `none`
models the JavaScript `null` produced when a task is completed. -/
inductive Priority where
  | Low
  | Medium
  | High
  | Critical
deriving DecidableEq, Repr

/-- One timestamped note. -/
structure Note where
  timestamp : Nat
  content : String
deriving DecidableEq, Repr

/-- A task record as stored in the object store. -/
structure Task where
  id : Nat
  name : String
  dueDate : Option Nat
  status : Status
  project : Option String
  priority : Option Priority
  notes : List Note
  parentTaskId : Option Nat
  childTaskIds : List Nat
  deleted : Bool
  deletedAt : Option Nat
deriving DecidableEq, Repr

/-- The seven mutable fields captured by `previousState` / `newState` when a
modify action is recorded. -/
structure TaskFields where
  name : String
  dueDate : Option Nat
  status : Status
  project : Option String
  priority : Option Priority
  notes : List Note
  parentTaskId : Option Nat
deriving DecidableEq, Repr

/-- The `updates` argument of `updateTask`: each field is `none` when the
corresponding key is absent from the updates object.  For the fields whose
JavaScript value may itself be `null`, the inner `Option` models `null`. -/
structure Updates where
  name : Option String
  dueDate : Option (Option Nat)
  status : Option Status
  project : Option (Option String)
  priority : Option (Option Priority)
  notes : Option (List Note)
  parentTaskId : Option (Option Nat)
deriving DecidableEq, Repr

/-- The empty updates object. -/
def noUpdates : Updates :=
  { name := none, dueDate := none, status := none, project := none,
    priority := none, notes := none, parentTaskId := none }

/-- The argument of `createTask`. -/
structure TaskData where
  name : String
  dueDate : Option Nat
  status : Option Status
  project : Option String
  priority : Option Priority
  notes : List Note
  parentTaskId : Option Nat
deriving DecidableEq, Repr

/-- A `TaskData` with only a name, everything else defaulted. -/
def mkTaskData (n : String) : TaskData :=
  { name := n, dueDate := none, status := none, project := none,
    priority := none, notes := [], parentTaskId := none }

/-- One reversible action in the history log. -/
inductive Action where
  | create (taskId : Nat)
  | modify (taskId : Nat) (previousState newState : TaskFields)
  | delete (taskId : Nat) (deletedTaskIds : List Nat)
  | restore (taskId : Nat)
deriving DecidableEq, Repr

/-- The store: the task arena, the id counter, and the two history stacks.
Stacks are lists with the most recent action at the head. -/
structure Store where
  tasks : List Task
  nextId : Nat
  undoStack : List Action
  redoStack : List Action
deriving DecidableEq, Repr

/-- The error taxonomy: one constructor per `throw` site of the source that
the embedded operations can reach. -/
inductive Err where
  | nameRequired
  | parentNotFound (id : Nat)
  | maxHierarchyCreate
  | maxHierarchyUpdate
  | circularRef
  | taskNotFound (id : Nat)
  | notDeleted (id : Nat)
  | nothingToUndo
  | nothingToRedo
deriving DecidableEq, Repr

/-- The empty store. -/
def emptyStore : Store :=
  { tasks := [], nextId := 1, undoStack := [], redoStack := [] }

/-- `getTaskById`: fetch a record (deleted ones included) from the arena. -/
def getTaskById (db : List Task) (taskId : Nat) : Option Task :=
  db.find? (fun t => t.id == taskId)

/-- `saveTask` / `store.put`: upsert a record keyed by `id`. -/
def save (db : List Task) (t : Task) : List Task :=
  if db.any (fun x => x.id == t.id) then
    db.map (fun x => if x.id == t.id then t else x)
  else
    db ++ [t]

/-- `getAllTasks()` with the default `includeDeleted = false`. -/
def getAllTasks (db : List Task) : List Task :=
  db.filter (fun t => !t.deleted)

/-- JavaScript `String.prototype.trim`: strip leading and trailing
whitespace (written over the character list so that it evaluates inside the
kernel). -/
def jsTrim (s : String) : String :=
  String.mk
    (((s.toList.dropWhile Char.isWhitespace).reverse.dropWhile
        Char.isWhitespace).reverse)

/-- JavaScript `String.prototype.toLowerCase` (over the character list so
that it evaluates inside the kernel). -/
def jsToLower (s : String) : String :=
  String.mk (s.toList.map Char.toLower)

/-- `getTaskDepth`: walk the parent chain counting steps; a dangling parent
reference still counts one step before the walk breaks, exactly as in the
source loop.  `fuel` bounds the walk (the source loop does not terminate on
a cyclic chain). -/
def getTaskDepthAux : Nat → List Task → Task → Nat → Nat
  | 0, _, _, acc => acc
  | fuel + 1, db, cur, acc =>
    match cur.parentTaskId with
    | none => acc
    | some pid =>
      match getTaskById db pid with
      | none => acc + 1
      | some p => getTaskDepthAux fuel db p (acc + 1)

/-- `getTaskDepth` with fuel larger than the arena. -/
def getTaskDepth (db : List Task) (t : Task) : Nat :=
  getTaskDepthAux (db.length + 1) db t 0

/-- `getTaskDepthSync(task, allTasks)`: same walk as `getTaskDepth`, reading
from the given snapshot. -/
def getTaskDepthSync (all : List Task) (t : Task) : Nat :=
  getTaskDepth all t

/-- `getMaxChildDepth`: height of the child tree below a task, skipping
dangling child references. -/
def getMaxChildDepthAux : Nat → List Task → Task → Nat
  | 0, _, _ => 0
  | fuel + 1, db, t =>
    t.childTaskIds.foldl
      (fun m cid =>
        match getTaskById db cid with
        | none => m
        | some c => Nat.max m (1 + getMaxChildDepthAux fuel db c))
      0

/-- `getMaxChildDepth` with fuel larger than the arena. -/
def getMaxChildDepth (db : List Task) (t : Task) : Nat :=
  getMaxChildDepthAux (db.length + 1) db t

/-- `isDescendant(taskId, ancestorId)`: is `taskId` strictly below
`ancestorId` in the child tree?  Mirrors the source: a missing task or
ancestor answers `false`; the ancestor's own membership in its `childTaskIds`
is not considered. -/
def isDescendantAux : Nat → List Task → Nat → Nat → Bool
  | 0, _, _, _ => false
  | fuel + 1, db, taskId, ancestorId =>
    match getTaskById db taskId with
    | none => false
    | some _ =>
      match getTaskById db ancestorId with
      | none => false
      | some anc =>
        if anc.childTaskIds.contains taskId then true
        else anc.childTaskIds.any (fun cid => isDescendantAux fuel db taskId cid)

/-- `isDescendant` with fuel larger than the arena. -/
def isDescendant (db : List Task) (taskId ancestorId : Nat) : Bool :=
  isDescendantAux (db.length + 1) db taskId ancestorId

/-- `completeAllDescendants`: walk the child tree; every child that is not
already `Completed` is marked `Completed` with its priority cleared and its
own subtree is walked in turn.  A child already `Completed` is skipped
entirely, so nothing below it is visited. -/
def completeAllDescendantsAux : Nat → List Task → Task → List Task
  | 0, db, _ => db
  | fuel + 1, db, t =>
    t.childTaskIds.foldl
      (fun db cid =>
        match getTaskById db cid with
        | none => db
        | some c =>
          if c.status != Status.Completed then
            let c' := { c with status := Status.Completed, priority := none }
            completeAllDescendantsAux fuel (save db c') c'
          else db)
      db

/-- `completeAllDescendants` with fuel larger than the arena. -/
def completeAllDescendants (db : List Task) (t : Task) : List Task :=
  completeAllDescendantsAux (db.length + 1) db t

/-- `areAllChildrenCompleted`: false for a childless task, false when some
child is missing or not completed. -/
def areAllChildrenCompleted (db : List Task) (t : Task) : Bool :=
  if t.childTaskIds.isEmpty then false
  else
    t.childTaskIds.all fun cid =>
      match getTaskById db cid with
      | none => false
      | some c => c.status == Status.Completed

/-- `checkAndCompleteParent`: after a task turns `Completed`, complete its
parent if the parent exists, is not yet completed, and all of its children
are completed.  The parent is saved with only its status changed — its
priority is left as it was — and no further level is visited. -/
def checkAndCompleteParent (db : List Task) (t : Task) : List Task :=
  if t.status != Status.Completed then db
  else
    match t.parentTaskId with
    | none => db
    | some pid =>
      match getTaskById db pid with
      | none => db
      | some parent =>
        if parent.status == Status.Completed then db
        else if areAllChildrenCompleted db parent then
          save db { parent with status := Status.Completed }
        else db

/-- Capture the seven recorded fields of a task. -/
def taskFields (t : Task) : TaskFields :=
  { name := t.name, dueDate := t.dueDate, status := t.status,
    project := t.project, priority := t.priority, notes := t.notes,
    parentTaskId := t.parentTaskId }

/-- Spread a recorded state back into an updates object with every key
present, as `updateTaskWithoutHistory(taskId, action.previousState)` does. -/
def fieldsToUpdates (f : TaskFields) : Updates :=
  { name := some f.name, dueDate := some f.dueDate, status := some f.status,
    project := some f.project, priority := some f.priority,
    notes := some f.notes, parentTaskId := some f.parentTaskId }

/-- Apply an updates object to a task snapshot: every present key replaces
the field, `id` and `childTaskIds` are never touched. -/
def applyUpdates (t : Task) (u : Updates) : Task :=
  { t with
    name := u.name.getD t.name,
    dueDate := u.dueDate.getD t.dueDate,
    status := u.status.getD t.status,
    project := u.project.getD t.project,
    priority := u.priority.getD t.priority,
    notes := u.notes.getD t.notes,
    parentTaskId := u.parentTaskId.getD t.parentTaskId }

/-- The maximum undo history size. -/
def maxHistorySize : Nat := 20

/-- `recordAction`: push onto the undo stack, drop the oldest entry when the
bound is exceeded, clear the redo stack. -/
def recordAction (s : Store) (a : Action) : Store :=
  let st := a :: s.undoStack
  { s with
    undoStack := if st.length > maxHistorySize then st.dropLast else st,
    redoStack := [] }

/-- The detach step shared by `updateTask` and `deleteTask`: remove the
task's id from its old parent's `childTaskIds` and save that parent. -/
def detachFromOldParent (db : List Task) (t : Task) : List Task :=
  match t.parentTaskId with
  | none => db
  | some pid =>
    match getTaskById db pid with
    | none => db
    | some oldParent =>
      save db
        { oldParent with
          childTaskIds := oldParent.childTaskIds.filter (fun i => i != t.id) }

/-- The soft-deletion mark: `deleted = true` with the model timestamp. -/
def markDeleted (t : Task) : Task :=
  { t with deleted := true, deletedAt := some 0 }

/-- Clearing the soft-deletion mark, as `restoreTask` does. -/
def clearDeleted (t : Task) : Task :=
  { t with deleted := false, deletedAt := none }

/-- The reparent block of `updateTask`: when the updates object carries a
`parentTaskId` different from the current one, first detach from the old
parent, then validate the new parent (existence, depth, cycle) and attach.
All three validation failures happen after the detach has been saved. -/
def updateReparent (db : List Task) (taskId : Nat) (task : Task) (u : Updates) :
    Except (Err × List Task) (List Task) :=
  match u.parentTaskId with
  | none => Except.ok db
  | some np =>
    if np == task.parentTaskId then Except.ok db
    else
      let db1 := detachFromOldParent db task
      match np with
      | none => Except.ok db1
      | some npid =>
        match getTaskById db1 npid with
        | none => Except.error (Err.parentNotFound npid, db1)
        | some newParent =>
          if getTaskDepth db1 newParent + 1 + getMaxChildDepth db1 task > 2 then
            Except.error (Err.maxHierarchyUpdate, db1)
          else if isDescendant db1 npid taskId then
            Except.error (Err.circularRef, db1)
          else if newParent.childTaskIds.contains taskId then Except.ok db1
          else
            Except.ok
              (save db1
                { newParent with
                  childTaskIds := newParent.childTaskIds ++ [taskId] })

/-- The completion rule applied after the updates: when the resulting status
is `Completed` and the priority is not already absent, the priority is
forced absent. -/
def applyCompletedRule (t : Task) : Task :=
  if t.status == Status.Completed && !(t.priority == none) then
    { t with priority := none }
  else t

/-- The tail of a successful `updateTask`: apply the updates to the snapshot
fetched at entry, force the priority absent on completion, cascade
completion to descendants, save the (stale) snapshot, record the modify
action, then run the parent auto-completion check. -/
def updateFinish (s : Store) (db2 : List Task) (taskId : Nat) (task : Task)
    (u : Updates) : Store :=
  let task2 := applyCompletedRule (applyUpdates task u)
  let db3 :=
    if task2.status == Status.Completed then completeAllDescendants db2 task2
    else db2
  let db4 := save db3 task2
  let s1 :=
    recordAction { s with tasks := db4 }
      (Action.modify taskId (taskFields task) (taskFields task2))
  { s1 with tasks := checkAndCompleteParent s1.tasks task2 }

/-- `updateTask`. -/
def updateTask (s : Store) (taskId : Nat) (u : Updates) :
    Except (Err × Store) Store :=
  match getTaskById s.tasks taskId with
  | none => Except.error (Err.taskNotFound taskId, s)
  | some task =>
    match updateReparent s.tasks taskId task u with
    | Except.error (e, db') => Except.error (e, { s with tasks := db' })
    | Except.ok db2 => Except.ok (updateFinish s db2 taskId task u)

/-- `createTask`. -/
def createTask (s : Store) (d : TaskData) : Except (Err × Store) Store :=
  if jsTrim d.name == "" then Except.error (Err.nameRequired, s)
  else
    let go : Except (Err × Store) Store :=
      let taskId := s.nextId
      let task : Task :=
        { id := taskId, name := jsTrim d.name, dueDate := d.dueDate,
          status := d.status.getD Status.NotStarted, project := d.project,
          priority := some (d.priority.getD Priority.Medium),
          notes := d.notes, parentTaskId := d.parentTaskId,
          childTaskIds := [], deleted := false, deletedAt := none }
      let db1 := save s.tasks task
      let db2 :=
        match task.parentTaskId with
        | none => db1
        | some pid =>
          match getTaskById db1 pid with
          | none => db1
          | some parent =>
            if parent.childTaskIds.contains taskId then db1
            else
              save db1
                { parent with childTaskIds := parent.childTaskIds ++ [taskId] }
      Except.ok
        (recordAction { s with tasks := db2, nextId := s.nextId + 1 }
          (Action.create taskId))
    match d.parentTaskId with
    | none => go
    | some pid =>
      match getTaskById s.tasks pid with
      | none => Except.error (Err.parentNotFound pid, s)
      | some parent =>
        if getTaskDepth s.tasks parent ≥ 2 then
          Except.error (Err.maxHierarchyCreate, s)
        else go

/-- The recursive body of `deleteTask` over a worklist of ids: delete each
listed task, cascading to its children first (children are processed before
the task detaches from its own parent and is marked deleted).  The returned
id list is the pre-order `deletedTaskIds` collection of the source.  The
final save writes the snapshot fetched at entry, so a cascade-deleted
task keeps the `childTaskIds` it had before its children detached from it.
The fuel only bounds the walk (the source recursion is unbounded); the
public entry point passes more fuel than any terminating source run uses. -/
def deleteMany : Nat → List Task → List Nat → Except (Err × List Task) (List Task × List Nat)
  | 0, db, _ => Except.ok (db, [])
  | _ + 1, db, [] => Except.ok (db, [])
  | fuel + 1, db, tid :: rest =>
    match getTaskById db tid with
    | none => Except.error (Err.taskNotFound tid, db)
    | some task =>
      match deleteMany fuel db task.childTaskIds with
      | Except.error e => Except.error e
      | Except.ok (db1, childIds) =>
        let db2 := detachFromOldParent db1 task
        let db3 := save db2 (markDeleted task)
        match deleteMany fuel db3 rest with
        | Except.error e => Except.error e
        | Except.ok (db4, restIds) => Except.ok (db4, (tid :: childIds) ++ restIds)

/-- Fuel amply covering every terminating `deleteTask` cascade: one unit per
record plus one per child reference plus slack. -/
def deleteFuel (db : List Task) : Nat :=
  db.length + db.foldl (fun a t => a + t.childTaskIds.length) 0 + 2

/-- The pre-order id list a cascade delete over the worklist `l` collects,
computed against a fixed arena.  Mirrors the recursion of `deleteMany`
step for step (same fuel discipline). -/
def subtreeMany : Nat → List Task → List Nat → List Nat
  | 0, _, _ => []
  | _ + 1, _, [] => []
  | fuel + 1, db, tid :: rest =>
    match getTaskById db tid with
    | none => []
    | some task =>
      (tid :: subtreeMany fuel db task.childTaskIds) ++
        subtreeMany fuel db rest

/-- Well-formedness of a cascade over the worklist `l` under the designated
parent `pid`: every listed task exists, is not deleted, points back to the
designated parent, and its child list is recursively well formed — and the
fuel suffices for the whole walk.  Mirrors the recursion of `deleteMany`. -/
def cascadeOk : Nat → List Task → Option Nat → List Nat → Bool
  | 0, _, _, l => l.isEmpty
  | _ + 1, _, _, [] => true
  | fuel + 1, db, pid, tid :: rest =>
    (match getTaskById db tid with
     | none => false
     | some task =>
       (task.parentTaskId == pid) && !task.deleted &&
         cascadeOk fuel db (some tid) task.childTaskIds) &&
      cascadeOk fuel db pid rest

/-- `deleteTask(taskId, deleteChildren)` (the public, action-recording entry
point): soft-delete the task; with `deleteChildren` the whole child tree is
deleted recursively, otherwise each child is detached to root first.
Returns the new store and the list of all deleted ids. -/
def deleteTask (s : Store) (taskId : Nat) (deleteChildren : Bool) :
    Except (Err × Store) (Store × List Nat) :=
  match getTaskById s.tasks taskId with
  | none => Except.error (Err.taskNotFound taskId, s)
  | some task =>
    let inner : Except (Err × List Task) (List Task × List Nat) :=
      if deleteChildren then
        deleteMany (deleteFuel s.tasks) s.tasks task.childTaskIds
      else
        Except.ok
          (task.childTaskIds.foldl
            (fun db cid =>
              match getTaskById db cid with
              | none => db
              | some c => save db { c with parentTaskId := none })
            s.tasks, [])
    match inner with
    | Except.error (e, db') => Except.error (e, { s with tasks := db' })
    | Except.ok (db1, childIds) =>
      let db2 := detachFromOldParent db1 task
      let db3 := save db2 (markDeleted task)
      let ids := taskId :: childIds
      Except.ok
        (recordAction { s with tasks := db3 } (Action.delete taskId ids), ids)

/-- `restoreTask` (the public, action-recording entry point): clear the
deletion mark and, when the parent exists and is not deleted, re-attach the
task to the parent's `childTaskIds`. -/
def restoreTask (s : Store) (taskId : Nat) : Except (Err × Store) Store :=
  match getTaskById s.tasks taskId with
  | none => Except.error (Err.taskNotFound taskId, s)
  | some task =>
    if !task.deleted then Except.error (Err.notDeleted taskId, s)
    else
      let db1 := save s.tasks (clearDeleted task)
      let db2 :=
        match task.parentTaskId with
        | none => db1
        | some pid =>
          match getTaskById db1 pid with
          | none => db1
          | some parent =>
            if !parent.deleted && !parent.childTaskIds.contains taskId then
              save db1 { parent with childTaskIds := parent.childTaskIds ++ [taskId] }
            else db1
      Except.ok (recordAction { s with tasks := db2 } (Action.restore taskId))

/-- `restoreTaskWithoutHistory`: the history-free restore used when undoing a
delete.  A missing task (purged) or a non-deleted task is skipped silently. -/
def restoreTaskWithoutHistory (db : List Task) (taskId : Nat) : List Task :=
  match getTaskById db taskId with
  | none => db
  | some task =>
    if !task.deleted then db
    else
      let db1 := save db (clearDeleted task)
      match task.parentTaskId with
      | none => db1
      | some pid =>
        match getTaskById db1 pid with
        | none => db1
        | some parent =>
          if !parent.deleted && !parent.childTaskIds.contains taskId then
            save db1 { parent with childTaskIds := parent.childTaskIds ++ [taskId] }
          else db1

/-- `deleteTaskWithoutHistory`: the history-free, non-cascading delete used
when redoing a delete.  A missing task is skipped silently, an
already-deleted task is left as is. -/
def deleteTaskWithoutHistory (db : List Task) (taskId : Nat) : List Task :=
  match getTaskById db taskId with
  | none => db
  | some task =>
    if task.deleted then db
    else
      let db1 := detachFromOldParent db task
      save db1 (markDeleted task)

/-- `updateTaskWithoutHistory`: the history-free field update used when
replaying a modify action.  Parent changes move the task between the two
parents' `childTaskIds` without any validation. -/
def updateTaskWithoutHistory (db : List Task) (taskId : Nat) (u : Updates) :
    Except (Err × List Task) (List Task) :=
  match getTaskById db taskId with
  | none => Except.error (Err.taskNotFound taskId, db)
  | some task =>
    let reparent :=
      match u.parentTaskId with
      | none => false
      | some np => np != task.parentTaskId
    let db1 :=
      if reparent then
        let dbA := detachFromOldParent db task
        match u.parentTaskId.getD none with
        | none => dbA
        | some npid =>
          match getTaskById dbA npid with
          | none => dbA
          | some newParent =>
            if newParent.childTaskIds.contains taskId then dbA
            else
              save dbA
                { newParent with childTaskIds := newParent.childTaskIds ++ [taskId] }
      else db
    Except.ok (save db1 (applyUpdates task u))

/-- The block shared by the `create` and `restore` cases of `undo`: detach
the task from its parent's `childTaskIds` and soft-delete it; a missing task
is skipped silently. -/
def removeAndSoftDelete (db : List Task) (taskId : Nat) : List Task :=
  match getTaskById db taskId with
  | none => db
  | some task =>
    let db1 := detachFromOldParent db task
    save db1 (markDeleted task)

/-- Replay of one popped action by `undo`; operates on the arena only. -/
def undoReplay (db : List Task) (a : Action) : Except (Err × List Task) (List Task) :=
  match a with
  | Action.delete _ ids =>
    Except.ok (ids.reverse.foldl restoreTaskWithoutHistory db)
  | Action.modify tid prev _ =>
    updateTaskWithoutHistory db tid (fieldsToUpdates prev)
  | Action.create tid => Except.ok (removeAndSoftDelete db tid)
  | Action.restore tid => Except.ok (removeAndSoftDelete db tid)

/-- `undo`: pop the most recent action and replay its inverse; on success
the action moves to the redo stack, on failure it is pushed back where it
was popped from. -/
def undo (s : Store) : Except (Err × Store) Store :=
  match s.undoStack with
  | [] => Except.error (Err.nothingToUndo, s)
  | action :: rest =>
    match undoReplay s.tasks action with
    | Except.ok db' =>
      Except.ok
        { s with
          tasks := db'
          undoStack := rest
          redoStack := action :: s.redoStack }
    | Except.error (e, db') => Except.error (e, { s with tasks := db' })

/-- `redo`: pop the most recent undone action and replay it forward; on
success the action moves back to the undo stack, on failure it is pushed
back onto the redo stack.  Replaying a `create` or `restore` action goes
through the public `restoreTask`, which itself records a new action. -/
def redo (s : Store) : Except (Err × Store) Store :=
  match s.redoStack with
  | [] => Except.error (Err.nothingToRedo, s)
  | action :: rest =>
    let sp : Store := { s with redoStack := rest }
    match action with
    | Action.delete _ ids =>
      let db' := ids.foldl deleteTaskWithoutHistory sp.tasks
      Except.ok { sp with tasks := db', undoStack := action :: sp.undoStack }
    | Action.modify tid _ new =>
      match updateTaskWithoutHistory sp.tasks tid (fieldsToUpdates new) with
      | Except.ok db' =>
        Except.ok { sp with tasks := db', undoStack := action :: sp.undoStack }
      | Except.error (e, db') =>
        Except.error (e, { sp with tasks := db', redoStack := action :: rest })
    | Action.create tid =>
      match restoreTask sp tid with
      | Except.ok s1 => Except.ok { s1 with undoStack := action :: s1.undoStack }
      | Except.error (e, s1) =>
        Except.error (e, { s1 with redoStack := action :: s1.redoStack })
    | Action.restore tid =>
      match restoreTask sp tid with
      | Except.ok s1 => Except.ok { s1 with undoStack := action :: s1.undoStack }
      | Except.error (e, s1) =>
        Except.error (e, { s1 with redoStack := action :: s1.redoStack })

/-- The value of an id predicate: a single id or a set of ids (a range is
turned into the list of its members by the command parser before it reaches
the store). -/
inductive IdVal where
  | single (n : Nat)
  | many (ns : List Nat)
deriving DecidableEq, Repr

/-- An id predicate with its negate flag. -/
structure IdFilter where
  value : IdVal
  negate : Bool
deriving DecidableEq, Repr

/-- A project predicate: case-insensitive string equality, negatable. -/
structure ProjFilter where
  value : String
  negate : Bool
deriving DecidableEq, Repr

/-- A priority predicate, negatable.  A task with an absent priority never
matches positively. -/
structure PrioFilter where
  value : Priority
  negate : Bool
deriving DecidableEq, Repr

/-- A status predicate, negatable. -/
structure StatusFilter where
  value : Status
  negate : Bool
deriving DecidableEq, Repr

/-- The `filters` argument of `filterTasks`: each field is `none` when that
predicate is not given. -/
structure Filters where
  id : Option IdFilter
  project : Option ProjFilter
  priority : Option PrioFilter
  status : Option StatusFilter
deriving DecidableEq, Repr

/-- The filters object with no predicate given. -/
def noFilters : Filters :=
  { id := none, project := none, priority := none, status := none }

/-- The predicate part of `filterTasks`: a task is kept iff every given
predicate accepts it, where a negated predicate accepts exactly when the
plain one rejects. -/
def taskMatches (f : Filters) (t : Task) : Bool :=
  (match f.id with
   | none => true
   | some g =>
     let m :=
       match g.value with
       | IdVal.single n => t.id == n
       | IdVal.many ns => ns.contains t.id
     if g.negate then !m else m) &&
  (match f.project with
   | none => true
   | some g =>
     let m :=
       match t.project with
       | none => false
       | some p => jsToLower p == jsToLower g.value
     if g.negate then !m else m) &&
  (match f.priority with
   | none => true
   | some g =>
     let m :=
       match t.priority with
       | none => false
       | some p => p == g.value
     if g.negate then !m else m) &&
  (match f.status with
   | none => true
   | some g =>
     let m := t.status == g.value
     if g.negate then !m else m)

/-- The ancestor walk of `filterTasks`: the parent ids encountered while
walking up the `parentTaskId` chain inside the snapshot.  A dangling parent
id is still collected before the walk breaks, exactly as in the source. -/
def ancChainIds : Nat → List Task → Task → List Nat
  | 0, _, _ => []
  | fuel + 1, all, cur =>
    match cur.parentTaskId with
    | none => []
    | some pid =>
      pid ::
        (match getTaskById all pid with
         | none => []
         | some p => ancChainIds fuel all p)

/-- The descendant walk of `filterTasks`: all child ids encountered while
walking down `childTaskIds` inside the snapshot, in visit order.  A dangling
child id is collected but not recursed into. -/
def rawDescIds : Nat → List Task → Task → List Nat
  | 0, _, _ => []
  | fuel + 1, all, t =>
    t.childTaskIds.foldl
      (fun acc cid =>
        acc ++
          (cid ::
            (match getTaskById all cid with
             | none => []
             | some c => rawDescIds fuel all c)))
      []

/-- Insert into the additional-id list unless already present: the model of
adding to the `additionalTasks` JavaScript `Set` (iteration order is
insertion order). -/
def addUnique (l : List Nat) (x : Nat) : List Nat :=
  if l.contains x then l else l ++ [x]

/-- Fold a walk's ids into the additional-id list, skipping ids of matched
tasks, as the guarded `additionalTasks.add` calls do. -/
def addGuarded (matchedIds : List Nat) (acc : List Nat) (ids : List Nat) : List Nat :=
  ids.foldl (fun a i => if matchedIds.contains i then a else addUnique a i) acc

/-- The family-closure expansion of `filterTasks`: for every matched task,
collect its ancestor chain and its descendant tree into the additional-id
list. -/
def buildAdditional (all : List Task) (matchedIds : List Nat)
    (matched : List Task) : List Nat :=
  matched.foldl
    (fun acc t =>
      addGuarded matchedIds
        (addGuarded matchedIds acc (ancChainIds (all.length + 1) all t))
        (rawDescIds (all.length + 1) all t))
    []

/-- The sort key of the final `filterTasks` sort: depth first, id second. -/
def sortKeyLe (all : List Task) (a b : Task) : Bool :=
  getTaskDepthSync all a < getTaskDepthSync all b ||
    (getTaskDepthSync all a == getTaskDepthSync all b && a.id ≤ b.id)

/-- Insert a task into a list sorted by `sortKeyLe`. -/
def insertByKey (all : List Task) (x : Task) : List Task → List Task
  | [] => [x]
  | y :: rest =>
    if sortKeyLe all x y then x :: y :: rest
    else y :: insertByKey all x rest

/-- Sort a task list by depth, ties broken by id: the embedding of the
final `.sort` call of `filterTasks` (its comparator is a total order, and
the ids in the sorted list are distinct, so the result is the unique sorted
arrangement; insertion sort computes it). -/
def sortByKey (all : List Task) (l : List Task) : List Task :=
  l.foldr (insertByKey all) []

/-- `filterTasks`: keep the non-deleted tasks accepted by every given
predicate, expand to the family closure (all ancestors and descendants of
every match), and sort by depth then id. -/
def filterTasks (db : List Task) (f : Filters) : List Task :=
  let all := getAllTasks db
  let matched := all.filter (taskMatches f)
  let matchedIds := matched.map (fun t => t.id)
  let additional := buildAdditional all matchedIds matched
  let finalTasks :=
    matched ++ additional.filterMap (fun i => all.find? (fun t => t.id == i))
  sortByKey all finalTasks

/-- The specification's description of the filter result set, stated
directly: a task belongs to the result exactly when it matches all given
predicates, or lies on the `parentId` ancestor chain of some match, or lies
in the `childIds` descendant tree of some match. -/
def familyClosurePred (all : List Task) (f : Filters) (t : Task) : Bool :=
  taskMatches f t ||
    all.any (fun m =>
      taskMatches f m && (ancChainIds (all.length + 1) all m).contains t.id) ||
    all.any (fun m =>
      taskMatches f m && (rawDescIds (all.length + 1) all m).contains t.id)

/-- The specification's description of `filter`, stated directly: the
non-deleted tasks satisfying the family-closure membership condition,
ordered by ascending depth with ties broken by ascending id. -/
def filterSpec (db : List Task) (f : Filters) : List Task :=
  let all := getAllTasks db
  sortByKey all (all.filter (familyClosurePred all f))

/-- Run a list of store operations in order; `none` as soon as one fails. -/
def runOps : Store → List (Store → Except (Err × Store) Store) → Option Store
  | s, [] => some s
  | s, f :: rest =>
    match f s with
    | Except.ok s' => runOps s' rest
    | Except.error _ => none

/-- Does the parent chain of a task reach a root (absent `parentTaskId`)
within `n` steps?  This is the statement `depth ≤ n` of the specification's
depth invariant; a dangling or cyclic chain never reaches a root. -/
def reachesRootWithin (db : List Task) : Task → Nat → Bool
  | t, 0 => t.parentTaskId == none
  | t, n + 1 =>
    match t.parentTaskId with
    | none => true
    | some pid =>
      match getTaskById db pid with
      | none => false
      | some p => reachesRootWithin db p n

/-- The store after: create task 1, then reparent task 1 under itself.
The source's circular-reference check (`isDescendant`) does not consider a
task a descendant of itself, so the self-reparent is accepted. -/
def selfLoopTrace : Option Store :=
  runOps emptyStore
    [fun s => createTask s (mkTaskData "a"),
     fun s => updateTask s 1 { noUpdates with parentTaskId := some (some 1) }]

/-- The C1 failing trace: a root (1) with children 2 and 3, a grandchild 4
under 2; complete 2 (cascading to 4), reopen 4, then complete 1.  The
cascade of completing 1 skips the already-completed child 2 and never
reaches the reopened grandchild 4. -/
def c1Trace : Option Store :=
  runOps emptyStore
    [fun s => createTask s (mkTaskData "gp"),
     fun s => createTask s { mkTaskData "c1" with parentTaskId := some 1 },
     fun s => createTask s { mkTaskData "c2" with parentTaskId := some 1 },
     fun s => createTask s { mkTaskData "g" with parentTaskId := some 2 },
     fun s => updateTask s 2 { noUpdates with status := some Status.Completed },
     fun s => updateTask s 4 { noUpdates with status := some Status.InProgress },
     fun s => updateTask s 1 { noUpdates with status := some Status.Completed }]

/-- The C6 counterexample trace: a root (1) with a single child 2, and 2
with children 3 and 4; complete 3, then complete 4.  Completing 4
auto-completes 2, but the check is not triggered again on 1 even though all
of 1's children are now completed. -/
def c6Trace : Option Store :=
  runOps emptyStore
    [fun s => createTask s (mkTaskData "gp"),
     fun s => createTask s { mkTaskData "p" with parentTaskId := some 1 },
     fun s => createTask s { mkTaskData "c1" with parentTaskId := some 2 },
     fun s => createTask s { mkTaskData "c2" with parentTaskId := some 2 },
     fun s => updateTask s 3 { noUpdates with status := some Status.Completed },
     fun s => updateTask s 4 { noUpdates with status := some Status.Completed }]

/-- The C8 counterexample trace: create a task, complete it (priority is
forced absent), then reopen it to `InProgress`: the priority stays absent
while the status is no longer `Completed`. -/
def c8Trace : Option Store :=
  runOps emptyStore
    [fun s => createTask s (mkTaskData "a"),
     fun s => updateTask s 1 { noUpdates with status := some Status.Completed },
     fun s => updateTask s 1 { noUpdates with status := some Status.InProgress }]

/-- The store before the C2 counterexample's final delete: create a root 1
with child 2, cascade-delete 1, then restore only 1.  Task 2 is deleted but
still listed in task 1's `childTaskIds` (the cascade saved task 1's stale
snapshot). -/
def c2Pre : Option Store :=
  runOps emptyStore
    [fun s => createTask s (mkTaskData "r"),
     fun s => createTask s { mkTaskData "c" with parentTaskId := some 1 },
     fun s => (deleteTask s 1 true).map Prod.fst,
     fun s => restoreTask s 1]

/-- The C2 counterexample: cascade-delete 1 again (the already-deleted task
2 is collected into the affected set) and undo: the undo restores 2, a task
that was already deleted before the delete being undone. -/
def c2Post : Option Store :=
  c2Pre.bind fun s =>
    runOps s [fun s => (deleteTask s 1 true).map Prod.fst, fun s => undo s]

/-- The store before the C4 counterexample's failing update: a root 1 with
child 2. -/
def c4Pre : Option Store :=
  runOps emptyStore
    [fun s => createTask s (mkTaskData "a"),
     fun s => createTask s { mkTaskData "b" with parentTaskId := some 1 }]

/-- The C4 counterexample: reparent task 2 under the non-existent task 99.
The call fails with the parent-not-found error, but only after the detach
from task 1 was saved; the pair holds the error and the store it left. -/
def c4Err : Option (Err × Store) :=
  c4Pre.bind fun s =>
    match updateTask s 2 { noUpdates with parentTaskId := some (some 99) } with
    | Except.error es => some es
    | Except.ok _ => none

/-- The modify updates used by the C9 history trace: rename task 1. -/
def c9upd (k : Nat) (s : Store) : Except (Err × Store) Store :=
  updateTask s 1 { noUpdates with name := some (String.mk (List.replicate k 'n')) }

/-- The C9 trace up to the recordings: create task 1 and apply 21 renames,
so that 22 actions have been recorded against a history bound of 20. -/
def c9Rec : Option Store :=
  (createTask emptyStore (mkTaskData "t")).toOption.bind fun s =>
    runOps s ((List.range 21).map (fun k => c9upd (k + 1)))

/-- The C9 trace after 20 successful undo calls. -/
def c9Und : Option Store :=
  c9Rec.bind fun s => runOps s (List.replicate 20 undo)

/-- The recorded fields of task 1 as first created in the C9 trace. -/
def c9f0 : TaskFields :=
  { name := "t", dueDate := none, status := Status.NotStarted, project := none,
    priority := some Priority.Medium, notes := [], parentTaskId := none }

/-- The earliest of the 21 modify actions of the C9 trace. -/
def c9m1 : Action :=
  Action.modify 1 c9f0 { c9f0 with name := "n" }

/-- A placeholder record used only as the default of `Option.getD` in
witness constructions. -/
def defaultTask : Task :=
  { id := 0, name := "", dueDate := none, status := Status.NotStarted,
    project := none, priority := none, notes := [], parentTaskId := none,
    childTaskIds := [], deleted := false, deletedAt := none }

/-- Witness store for the amended C8: a single fresh task. -/
def c8w : Store :=
  { tasks :=
      [{ id := 1, name := "w", dueDate := none, status := Status.NotStarted,
         project := none, priority := some Priority.Medium, notes := [],
         parentTaskId := none, childTaskIds := [], deleted := false,
         deletedAt := none }],
    nextId := 2, undoStack := [], redoStack := [] }

/-- The updates completing the C8 witness task. -/
def c8wU : Updates := { noUpdates with status := some Status.Completed }

/-- The store produced by the C8 witness update. -/
def c8wOut : Store :=
  match updateTask c8w 1 c8wU with
  | Except.ok s => s
  | Except.error p => p.2

/-- The C8 witness task after the completing update. -/
def c8wT : Task := (getTaskById c8wOut.tasks 1).getD defaultTask

/-- Witness store for the amended C6: a root 1 whose only child is 2. -/
def c6w : Store :=
  { tasks :=
      [{ id := 1, name := "p", dueDate := none, status := Status.NotStarted,
         project := none, priority := some Priority.Medium, notes := [],
         parentTaskId := none, childTaskIds := [2], deleted := false,
         deletedAt := none },
       { id := 2, name := "c", dueDate := none, status := Status.NotStarted,
         project := none, priority := some Priority.Medium, notes := [],
         parentTaskId := some 1, childTaskIds := [], deleted := false,
         deletedAt := none }],
    nextId := 3, undoStack := [], redoStack := [] }

/-- The store produced by completing task 2 of the C6 witness store. -/
def c6wOut : Store :=
  match updateTask c6w 2 c8wU with
  | Except.ok s => s
  | Except.error p => p.2

/-- The C6 witness child after its completing update. -/
def c6wT : Task := (getTaskById c6wOut.tasks 2).getD defaultTask

/-- The C6 witness parent after the auto-completion. -/
def c6wP : Task := (getTaskById c6wOut.tasks 1).getD defaultTask

/-- Witness store for the amended C4: the same shape as the counterexample,
a root 1 holding child 2. -/
def c4w : Store := c6w

/-- The reparenting updates of the C4 witness: a missing new parent. -/
def c4wU : Updates := { noUpdates with parentTaskId := some (some 99) }

/-- The store left behind by the failing C4 witness update. -/
def c4wS1 : Store :=
  match updateTask c4w 2 c4wU with
  | Except.ok s => s
  | Except.error p => p.2

/-- Witness snapshot for C7: a three-tier chain 1 → 2 → 3 where only the
grandchild 3 carries the project label. -/
def c7w : List Task :=
  [{ id := 1, name := "gp", dueDate := none, status := Status.NotStarted,
     project := none, priority := some Priority.Medium, notes := [],
     parentTaskId := none, childTaskIds := [2], deleted := false,
     deletedAt := none },
   { id := 2, name := "p", dueDate := none, status := Status.NotStarted,
     project := none, priority := some Priority.Medium, notes := [],
     parentTaskId := some 1, childTaskIds := [3], deleted := false,
     deletedAt := none },
   { id := 3, name := "g", dueDate := none, status := Status.NotStarted,
     project := some "X", priority := some Priority.Medium, notes := [],
     parentTaskId := some 2, childTaskIds := [], deleted := false,
     deletedAt := none }]

/-- The C7 witness predicate set: a single project equality. -/
def c7f : Filters :=
  { noFilters with project := some { value := "X", negate := false } }

/-- The store used to witness C10: an empty arena (the task was purged),
with a modify action waiting on the undo stack and a create action on the
redo stack; replaying either fails with a not-found error. -/
def c10s : Store :=
  { tasks := [], nextId := 5,
    undoStack :=
      [Action.modify 1
        { name := "x", dueDate := none, status := Status.NotStarted,
          project := none, priority := some Priority.Low, notes := [],
          parentTaskId := none }
        { name := "y", dueDate := none, status := Status.NotStarted,
          project := none, priority := some Priority.Low, notes := [],
          parentTaskId := none }],
    redoStack := [Action.create 3] }

/-- Witness store for the amended C2: a live root 1 holding the live child
2, the same shape as the C6 witness store. -/
def c2w : Store := c6w

/-- The root record of the C2 witness store. -/
def c2wR : Task := (getTaskById c2w.tasks 1).getD defaultTask

/-- A found record carries the looked-up id. -/
theorem getTaskById_some_id {db : List Task} {i : Nat} {t : Task}
    (h : getTaskById db i = some t) : t.id = i := by
  have := List.find?_some h
  simpa using this

/-- Looking up in a list whose head was replaced, away from the replaced
id. -/
theorem find?_map_replace_other (l : List Task) (t : Task) {x : Nat}
    (hx : x ≠ t.id) :
    (l.map (fun y => if y.id == t.id then t else y)).find?
        (fun y => y.id == x)
      = l.find? (fun y => y.id == x) := by
  induction l with
  | nil => rfl
  | cons a l ih =>
    simp only [List.map_cons, List.find?]
    by_cases ha : (a.id == t.id) = true
    · have ha' : a.id = t.id := by simpa using ha
      have ht : (t.id == x) = false := by simp [Ne.symm hx]
      have haf : (a.id == x) = false := by simp [ha', Ne.symm hx]
      rw [if_pos ha, ht, haf]
      exact ih
    · rw [if_neg ha]
      cases hax : (a.id == x) with
      | true => rfl
      | false => exact ih

/-- Looking up the replaced id after a replacing save finds the new record,
provided some record with that id was present. -/
theorem find?_map_replace_self (l : List Task) (t : Task)
    (hany : l.any (fun y => y.id == t.id) = true) :
    (l.map (fun y => if y.id == t.id then t else y)).find?
        (fun y => y.id == t.id)
      = some t := by
  induction l with
  | nil => simp at hany
  | cons a l ih =>
    simp only [List.map_cons, List.find?]
    by_cases ha : (a.id == t.id) = true
    · rw [if_pos ha]
      simp
    · have ha0 : (a.id == t.id) = false := Bool.eq_false_iff.mpr ha
      rw [if_neg ha, ha0]
      apply ih
      simpa [ha0] using hany

/-- The algebra of `save` with respect to `getTaskById`: looking up the
saved record's id finds the saved record, anything else is unchanged. -/
theorem getTaskById_save (db : List Task) (t : Task) (x : Nat) :
    getTaskById (save db t) x
      = if x = t.id then some t else getTaskById db x := by
  unfold save getTaskById
  by_cases hany : db.any (fun y => y.id == t.id) = true
  · rw [if_pos hany]
    by_cases hx : x = t.id
    · rw [if_pos hx, hx]
      exact find?_map_replace_self db t hany
    · rw [if_neg hx]
      exact find?_map_replace_other db t hx
  · rw [if_neg hany]
    rw [List.find?_append]
    by_cases hx : x = t.id
    · subst hx
      have hnone : List.find? (fun y => y.id == t.id) db = none := by
        rw [List.find?_eq_none]
        intro y hy
        simp only [List.any_eq_true, not_exists, not_and] at hany
        have := hany y hy
        simpa using this
      rw [hnone]
      simp [List.find?]
    · rw [if_neg hx]
      cases hf : List.find? (fun y => y.id == x) db with
      | some a => rfl
      | none =>
        have ht : (t.id == x) = false := by simp [Ne.symm hx]
        simp [List.find?, ht]

/-- Self lookup after a save. -/
theorem getTaskById_save_self (db : List Task) (t : Task) :
    getTaskById (save db t) t.id = some t := by
  rw [getTaskById_save]; simp

/-- Lookup away from the saved id. -/
theorem getTaskById_save_other (db : List Task) (t : Task) {x : Nat}
    (hx : x ≠ t.id) : getTaskById (save db t) x = getTaskById db x := by
  rw [getTaskById_save]; simp [hx]

/-- `applyUpdates` never changes the id. -/
theorem applyUpdates_id (t : Task) (u : Updates) : (applyUpdates t u).id = t.id :=
  rfl

/-- `applyCompletedRule` never changes the id. -/
theorem applyCompletedRule_id (t : Task) : (applyCompletedRule t).id = t.id := by
  unfold applyCompletedRule
  by_cases h : (t.status == Status.Completed && !(t.priority == none)) = true
  · rw [if_pos h]
  · rw [if_neg h]

/-- A successful `updateTask` decomposes into the entry lookup, a successful
reparent block, and the finishing tail. -/
theorem updateTask_ok_elim {s : Store} {taskId : Nat} {u : Updates} {s' : Store}
    (h : updateTask s taskId u = Except.ok s') :
    ∃ task db2, getTaskById s.tasks taskId = some task ∧
      updateReparent s.tasks taskId task u = Except.ok db2 ∧
      s' = updateFinish s db2 taskId task u := by
  unfold updateTask at h
  cases hg : getTaskById s.tasks taskId with
  | none => rw [hg] at h; simp at h
  | some task =>
    simp only [hg] at h
    cases hr : updateReparent s.tasks taskId task u with
    | error p =>
      obtain ⟨e, db⟩ := p
      rw [hr] at h; simp at h
    | ok db2 =>
      simp only [hr, Except.ok.injEq] at h
      exact ⟨task, db2, rfl, hr, h.symm⟩

/-- A failed `updateTask` decomposes into the entry lookup and a failed
reparent block, whose store it passes through with the history stacks
untouched. -/
theorem updateTask_error_elim {s : Store} {taskId : Nat} {u : Updates}
    {e : Err} {s1 : Store}
    (h : updateTask s taskId u = Except.error (e, s1)) :
    (getTaskById s.tasks taskId = none ∧ e = Err.taskNotFound taskId ∧ s1 = s) ∨
    (∃ task db', getTaskById s.tasks taskId = some task ∧
      updateReparent s.tasks taskId task u = Except.error (e, db') ∧
      s1 = { s with tasks := db' }) := by
  unfold updateTask at h
  cases hg : getTaskById s.tasks taskId with
  | none =>
    rw [hg] at h
    simp only [Except.error.injEq, Prod.mk.injEq] at h
    exact Or.inl ⟨rfl, h.1.symm, h.2.symm⟩
  | some task =>
    simp only [hg] at h
    cases hr : updateReparent s.tasks taskId task u with
    | ok db2 => rw [hr] at h; simp at h
    | error p =>
      obtain ⟨e0, db'⟩ := p
      simp only [hr, Except.error.injEq, Prod.mk.injEq] at h
      exact Or.inr ⟨task, db', rfl, by rw [hr, h.1], h.2.symm⟩

/-- Every error of the reparent block happens after the detach from the old
parent has been saved, and is one of the three reparent validation errors. -/
theorem updateReparent_error_elim {db : List Task} {taskId : Nat} {task : Task}
    {u : Updates} {e : Err} {db' : List Task}
    (h : updateReparent db taskId task u = Except.error (e, db')) :
    db' = detachFromOldParent db task ∧
      ((∃ n, e = Err.parentNotFound n) ∨ e = Err.maxHierarchyUpdate ∨
        e = Err.circularRef) := by
  unfold updateReparent at h
  cases hnp : u.parentTaskId with
  | none => rw [hnp] at h; simp at h
  | some np =>
    simp only [hnp] at h
    by_cases heq : (np == task.parentTaskId) = true
    · rw [if_pos heq] at h; simp at h
    · rw [if_neg heq] at h
      cases np with
      | none => simp at h
      | some npid =>
        simp only at h
        cases hl : getTaskById (detachFromOldParent db task) npid with
        | none =>
          simp only [hl, Except.error.injEq, Prod.mk.injEq] at h
          exact ⟨h.2.symm, Or.inl ⟨npid, h.1.symm⟩⟩
        | some newParent =>
          simp only [hl] at h
          by_cases hd :
              (getTaskDepth (detachFromOldParent db task) newParent + 1 +
                getMaxChildDepth (detachFromOldParent db task) task > 2)
          · rw [if_pos hd] at h
            simp only [Except.error.injEq, Prod.mk.injEq] at h
            exact ⟨h.2.symm, Or.inr (Or.inl h.1.symm)⟩
          · rw [if_neg hd] at h
            by_cases hc : isDescendant (detachFromOldParent db task) npid taskId = true
            · rw [if_pos hc] at h
              simp only [Except.error.injEq, Prod.mk.injEq] at h
              exact ⟨h.2.symm, Or.inr (Or.inr h.1.symm)⟩
            · rw [if_neg hc] at h
              by_cases hm : newParent.childTaskIds.contains taskId = true
              · rw [if_pos hm] at h; simp at h
              · rw [if_neg hm] at h; simp at h

/-- `checkAndCompleteParent` leaves the completed task's own record in
place. -/
theorem checkAndCompleteParent_lookup_self {db : List Task} {t : Task}
    (hdb : getTaskById db t.id = some t) :
    getTaskById (checkAndCompleteParent db t) t.id = some t := by
  unfold checkAndCompleteParent
  by_cases h1 : (t.status != Status.Completed) = true
  · rw [if_pos h1]; exact hdb
  · rw [if_neg h1]
    cases hp : t.parentTaskId with
    | none => exact hdb
    | some pid =>
      simp only
      cases hq : getTaskById db pid with
      | none => exact hdb
      | some parent =>
        simp only
        by_cases h2 : (parent.status == Status.Completed) = true
        · rw [if_pos h2]; exact hdb
        · rw [if_neg h2]
          by_cases h3 : areAllChildrenCompleted db parent = true
          · rw [if_pos h3]
            have hpid : parent.id = pid := getTaskById_some_id hq
            by_cases he : pid = t.id
            · exfalso
              rw [he] at hq
              rw [hdb] at hq
              have hpt : parent = t := by
                injection hq with hh
                exact hh.symm
              have hcompl : t.status = Status.Completed := by
                simpa using h1
              rw [hpt, hcompl] at h2
              simp at h2
            · rw [getTaskById_save_other]
              · exact hdb
              · simp only [hpid]
                exact fun hh => he hh.symm
          · rw [if_neg h3]; exact hdb

/-- After a successful `updateTask`, the task's record in the resulting
store is exactly the entry snapshot with the updates and the
completed-priority rule applied. -/
theorem updateTask_ok_lookup_self {s : Store} {taskId : Nat} {u : Updates}
    {s' : Store} (h : updateTask s taskId u = Except.ok s') :
    ∃ task, getTaskById s.tasks taskId = some task ∧
      getTaskById s'.tasks taskId
        = some (applyCompletedRule (applyUpdates task u)) := by
  obtain ⟨task, db2, hg, hr, rfl⟩ := updateTask_ok_elim h
  refine ⟨task, hg, ?_⟩
  have hid : (applyCompletedRule (applyUpdates task u)).id = taskId := by
    rw [applyCompletedRule_id, applyUpdates_id]
    exact getTaskById_some_id hg
  have htasks :
      (updateFinish s db2 taskId task u).tasks
        = checkAndCompleteParent
            (save
              (if (applyCompletedRule (applyUpdates task u)).status
                    == Status.Completed then
                completeAllDescendants db2 (applyCompletedRule (applyUpdates task u))
              else db2)
              (applyCompletedRule (applyUpdates task u)))
            (applyCompletedRule (applyUpdates task u)) := rfl
  rw [htasks, ← hid]
  exact checkAndCompleteParent_lookup_self (getTaskById_save_self _ _)

/-- C8 (amended): the direction of the invariant that the store really
enforces: immediately after an `update` call whose resulting task has
status Completed, that task's priority is absent.  (The global biconditional
of the claim fails: reopening leaves the priority absent on a non-Completed
task — see the counterexample — and parent auto-completion leaves a
Completed task with its priority still set.) -/
theorem c8_amended_completed_update_clears_priority :
    ∀ (s : Store) (taskId : Nat) (u : Updates) (s' : Store) (t' : Task),
      updateTask s taskId u = Except.ok s' →
      getTaskById s'.tasks taskId = some t' →
      t'.status = Status.Completed →
      t'.priority = none := by
  intro s taskId u s' t' h hl hst
  obtain ⟨task, hg, hl2⟩ := updateTask_ok_lookup_self h
  rw [hl] at hl2
  have ht2 : t' = applyCompletedRule (applyUpdates task u) := by injection hl2
  subst ht2
  unfold applyCompletedRule at hst ⊢
  by_cases hc :
      ((applyUpdates task u).status == Status.Completed &&
        !((applyUpdates task u).priority == none)) = true
  · rw [if_pos hc]
  · rw [if_neg hc] at hst ⊢
    simp only [Bool.and_eq_true, Bool.not_eq_true', beq_iff_eq,
      not_and, Bool.not_eq_true] at hc
    have := hc hst
    simpa using this

/-- Witness for the amended C8: completing the fresh witness task leaves its
priority absent. -/
theorem c8_amended_completed_update_clears_priority_witness :
    updateTask c8w 1 c8wU = Except.ok c8wOut ∧
    getTaskById c8wOut.tasks 1 = some c8wT ∧
    c8wT.status = Status.Completed ∧
    c8wT.priority = none :=
  ⟨rfl, rfl, rfl,
    c8_amended_completed_update_clears_priority c8w 1 c8wU c8wOut c8wT rfl rfl
      rfl⟩

/-- C6 (amended): the upward propagation the store really performs is a
single level per update call: when, after the call, the updated task is
Completed and its parent exists with every child Completed (in the code's
sense: a non-empty child list whose members all resolve to Completed
records), that parent has been auto-completed; the check is not triggered
again on the grandparent by the same call (see the counterexample). -/
theorem c6_amended_single_level_auto_complete :
    ∀ (s : Store) (taskId : Nat) (u : Updates) (s' : Store) (t' : Task)
      (pid : Nat) (parent : Task),
      updateTask s taskId u = Except.ok s' →
      getTaskById s'.tasks taskId = some t' →
      t'.status = Status.Completed →
      t'.parentTaskId = some pid →
      getTaskById s'.tasks pid = some parent →
      areAllChildrenCompleted s'.tasks parent = true →
      parent.status = Status.Completed := by
  intro s taskId u s' t' pid parent h hl hst hp hparent hall
  obtain ⟨task0, hg0, hl2⟩ := updateTask_ok_lookup_self h
  rw [hl] at hl2
  have ht2 : t' = applyCompletedRule (applyUpdates task0 u) := by injection hl2
  obtain ⟨task, db2, hg, hr, hs'⟩ := updateTask_ok_elim h
  rw [hg0] at hg
  have htk : task = task0 := by injection hg with hh; exact hh.symm
  subst htk
  have htasks :
      s'.tasks
        = checkAndCompleteParent
            (save
              (if (applyCompletedRule (applyUpdates task u)).status
                    == Status.Completed then
                completeAllDescendants db2 (applyCompletedRule (applyUpdates task u))
              else db2)
              (applyCompletedRule (applyUpdates task u)))
            (applyCompletedRule (applyUpdates task u)) := by
    rw [hs']
    rfl
  rw [← ht2] at htasks
  rw [htasks] at hparent hall
  unfold checkAndCompleteParent at hparent hall
  rw [if_neg (by simp [hst])] at hparent hall
  rw [hp] at hparent hall
  simp only at hparent hall
  cases hq :
      getTaskById
        (save
          (if t'.status == Status.Completed then
            completeAllDescendants db2 t'
          else db2)
          t')
        pid with
  | none =>
    rw [hq] at hparent
    simp only at hparent
    rw [hq] at hparent
    simp at hparent
  | some parent0 =>
    rw [hq] at hparent hall
    simp only at hparent hall
    by_cases hpc : (parent0.status == Status.Completed) = true
    · rw [if_pos hpc] at hparent
      rw [hq] at hparent
      have : parent = parent0 := by injection hparent with hh; exact hh.symm
      rw [this]
      simpa using hpc
    · rw [if_neg hpc] at hparent hall
      by_cases ha :
          areAllChildrenCompleted
            (save
              (if t'.status == Status.Completed then
                completeAllDescendants db2 t'
              else db2)
              t')
            parent0 = true
      · rw [if_pos ha] at hparent
        have hpid : parent0.id = pid := getTaskById_some_id hq
        rw [getTaskById_save] at hparent
        rw [if_pos (by simp [hpid])] at hparent
        have : parent = { parent0 with status := Status.Completed } := by
          injection hparent with hh
          exact hh.symm
        rw [this]
      · rw [if_neg ha] at hparent hall
        rw [hq] at hparent
        have : parent = parent0 := by injection hparent with hh; exact hh.symm
        rw [this] at hall
        exact absurd hall ha

/-- Witness for the amended C6: completing the only child of the witness
root auto-completes the root. -/
theorem c6_amended_single_level_auto_complete_witness :
    updateTask c6w 2 c8wU = Except.ok c6wOut ∧
    getTaskById c6wOut.tasks 2 = some c6wT ∧
    c6wT.status = Status.Completed ∧
    c6wT.parentTaskId = some 1 ∧
    getTaskById c6wOut.tasks 1 = some c6wP ∧
    areAllChildrenCompleted c6wOut.tasks c6wP = true ∧
    c6wP.status = Status.Completed :=
  ⟨rfl, rfl, rfl, rfl, rfl, rfl,
    c6_amended_single_level_auto_complete c6w 2 c8wU c6wOut c6wT 1 c6wP rfl rfl
      rfl rfl rfl rfl⟩

/-- C4 (amended): a failed `update` never touches the history stacks or the
id counter; when the failure is the entry not-found check the store is left
exactly unchanged, but when a reparenting validation fails (missing new
parent, depth bound, or cycle) the task has already been detached from its
old parent's `childTaskIds` — that one saved write is the only change. -/
theorem c4_amended_failed_update_effect :
    ∀ (s : Store) (taskId : Nat) (u : Updates) (e : Err) (s1 : Store),
      updateTask s taskId u = Except.error (e, s1) →
      s1.undoStack = s.undoStack ∧ s1.redoStack = s.redoStack ∧
      s1.nextId = s.nextId ∧
      ((getTaskById s.tasks taskId = none ∧ e = Err.taskNotFound taskId ∧
          s1 = s) ∨
        (∃ task, getTaskById s.tasks taskId = some task ∧
          s1.tasks = detachFromOldParent s.tasks task ∧
          ((∃ n, e = Err.parentNotFound n) ∨ e = Err.maxHierarchyUpdate ∨
            e = Err.circularRef))) := by
  intro s taskId u e s1 h
  rcases updateTask_error_elim h with ⟨hg, he, hs⟩ | ⟨task, db', hg, hr, hs⟩
  · subst hs
    exact ⟨rfl, rfl, rfl, Or.inl ⟨hg, he, rfl⟩⟩
  · obtain ⟨hdb, hcls⟩ := updateReparent_error_elim hr
    subst hs
    exact ⟨rfl, rfl, rfl, Or.inr ⟨task, hg, by rw [hdb], hcls⟩⟩

/-- Witness for the amended C4: the failing reparent of the counterexample
shape discharges the theorem's hypothesis. -/
theorem c4_amended_failed_update_effect_witness :
    updateTask c4w 2 c4wU = Except.error (Err.parentNotFound 99, c4wS1) ∧
    (c4wS1.undoStack = c4w.undoStack ∧ c4wS1.redoStack = c4w.redoStack ∧
      c4wS1.nextId = c4w.nextId ∧
      ((getTaskById c4w.tasks 2 = none ∧
          Err.parentNotFound 99 = Err.taskNotFound 2 ∧ c4wS1 = c4w) ∨
        (∃ task, getTaskById c4w.tasks 2 = some task ∧
          c4wS1.tasks = detachFromOldParent c4w.tasks task ∧
          ((∃ n, Err.parentNotFound 99 = Err.parentNotFound n) ∨
            Err.parentNotFound 99 = Err.maxHierarchyUpdate ∨
            Err.parentNotFound 99 = Err.circularRef)))) :=
  ⟨rfl,
    c4_amended_failed_update_effect c4w 2 c4wU (Err.parentNotFound 99) c4wS1
      rfl⟩

/-- C1: for every task `t` and every `update(t.id, fields)` call whose
resulting status is Completed, after the call `t`'s priority is absent, and
every descendant of `t` (children and grandchildren, recursively) has status
Completed with its priority absent — refuted by evaluation at the failing
input: in `c1Trace`, task 1 was just updated to Completed, task 4 is a
descendant of task 1, yet task 4 still has status `InProgress` (the cascade
skipped the already-completed child 2 under which 4 sits). -/
theorem c1_cascade_skips_reopened_grandchild :
    (c1Trace.bind fun s => getTaskById s.tasks 1).map (fun t => t.status)
      = some Status.Completed ∧
    c1Trace.map (fun s => isDescendant s.tasks 4 1) = some true ∧
    (c1Trace.bind fun s => getTaskById s.tasks 4).map
        (fun t => (t.status, t.priority))
      = some (Status.InProgress, none) :=
  ⟨rfl, rfl, rfl⟩

/-- C3: after every successful `update` that changes `parentId`, no task is
an ancestor of itself — refuted by evaluation at the failing input: the
update reparenting task 1 under itself succeeds and leaves
`parentTaskId = some 1` on task 1, a cycle of length one. -/
theorem c3_self_reparent_creates_cycle :
    (selfLoopTrace.bind fun s => getTaskById s.tasks 1).map
        (fun t => t.parentTaskId)
      = some (some 1) :=
  rfl

/-- C5: after any sequence of successful create and update operations every
task's depth is at most 2 — refuted by evaluation at the failing input: a
create followed by a successful self-reparenting update leaves task 1 with a
parent chain that never reaches a root, so its depth is not at most 2 (nor
bounded by anything). -/
theorem c5_depth_exceeded_after_self_reparent :
    selfLoopTrace.map
        (fun s =>
          match getTaskById s.tasks 1 with
          | some t => reachesRootWithin s.tasks t 2
          | none => true)
      = some false :=
  rfl

/-- C6 counterexample: in `c6Trace`, the update completing task 4
auto-completed its parent 2, after which every child of the grandparent 1 is
Completed — yet task 1 was not auto-completed, because the upward check is
not triggered recursively within the same call. -/
theorem c6_no_recursive_grandparent_completion :
    c6Trace.map
        (fun s =>
          match getTaskById s.tasks 1, getTaskById s.tasks 2 with
          | some gp, some p =>
            p.status == Status.Completed &&
              areAllChildrenCompleted s.tasks gp &&
              !(gp.status == Status.Completed)
          | _, _ => false)
      = some true :=
  rfl

/-- C8 counterexample: in `c8Trace`, task 1 was completed and then reopened
to `InProgress`; after the reopening update its priority is still absent
while its status is not Completed, so the claimed invariant does not hold in
every reachable state. -/
theorem c8_reopened_task_keeps_absent_priority :
    (c8Trace.bind fun s => getTaskById s.tasks 1).map
        (fun t => (t.status, t.priority))
      = some (Status.InProgress, none) :=
  rfl

/-- C2 counterexample: in `c2Pre`, task 2 is deleted (and still referenced
by task 1's stale `childTaskIds`); the subsequent cascade delete of task 1
succeeds and its undo restores task 2 as well, so the resulting store does
not contain exactly the pre-delete set of non-deleted tasks. -/
theorem c2_undo_restores_previously_deleted_descendant :
    (c2Pre.bind fun s => getTaskById s.tasks 2).map (fun t => t.deleted)
      = some true ∧
    (c2Post.bind fun s => getTaskById s.tasks 2).map (fun t => t.deleted)
      = some false :=
  ⟨rfl, rfl⟩

/-- C4 counterexample: with a root 1 holding child 2, the update reparenting
2 under the non-existent task 99 fails with the parent-not-found error, but
the store it leaves behind no longer lists 2 in task 1's `childTaskIds`:
the failed call did not leave the state unchanged. -/
theorem c4_failed_reparent_leaves_detached :
    (c4Pre.bind fun s => getTaskById s.tasks 1).map (fun t => t.childTaskIds)
      = some [2] ∧
    c4Err.map Prod.fst = some (Err.parentNotFound 99) ∧
    (c4Err.bind fun es => getTaskById es.2.tasks 1).map
        (fun t => t.childTaskIds)
      = some [] :=
  ⟨rfl, rfl, rfl⟩

/-- C9: the undo history holds at most 20 actions and recording a 21st
discards the earliest.  In the concrete trace: after a create and 21 rename
updates (22 recorded actions) the undo stack holds exactly 20 actions, the
earliest rename (and the create) are no longer on it, and the redo stack is
empty; 20 undo calls then succeed and empty the stack; a 21st undo fails
with the nothing-to-undo error leaving the store — both stacks included —
exactly as it was; and redo on the empty redo stack likewise fails with
nothing-to-redo leaving the store unchanged. -/
theorem c9_history_bounded_at_twenty :
    c9Rec.map
        (fun s => (s.undoStack.length, s.undoStack.contains c9m1,
          s.undoStack.contains (Action.create 1), s.redoStack))
      = some (20, false, false, []) ∧
    c9Und.map (fun s => s.undoStack) = some [] ∧
    (c9Und.map fun s => undo s)
      = (c9Und.map fun s => Except.error (Err.nothingToUndo, s)) ∧
    (c9Rec.map fun s => redo s)
      = (c9Rec.map fun s => Except.error (Err.nothingToRedo, s)) :=
  ⟨rfl, rfl, rfl, rfl⟩

/-- A failed `restoreTask` leaves the store exactly as it was (both throw
sites precede any write). -/
theorem restoreTask_error_state {s : Store} {tid : Nat} {e : Err} {s1 : Store}
    (h : restoreTask s tid = Except.error (e, s1)) : s1 = s := by
  unfold restoreTask at h
  cases hg : getTaskById s.tasks tid with
  | none =>
    simp only [hg, Except.error.injEq, Prod.mk.injEq] at h
    exact h.2.symm
  | some task =>
    simp only [hg] at h
    by_cases hd : (!task.deleted) = true
    · rw [if_pos hd] at h
      simp only [Except.error.injEq, Prod.mk.injEq] at h
      exact h.2.symm
    · rw [if_neg hd] at h
      simp at h

/-- C10: if an undo (or redo) call fails while replaying the popped action,
the popped action is pushed back onto the stack it came from, so both
history stacks are exactly as they were before the call and the action
remains available to retry. -/
theorem c10_failed_undo_redo_preserves_stacks :
    (∀ (s : Store) (e : Err) (s' : Store),
      undo s = Except.error (e, s') →
        s'.undoStack = s.undoStack ∧ s'.redoStack = s.redoStack) ∧
    (∀ (s : Store) (e : Err) (s' : Store),
      redo s = Except.error (e, s') →
        s'.undoStack = s.undoStack ∧ s'.redoStack = s.redoStack) := by
  constructor
  · rintro ⟨tasks, nid, ustk, rstk⟩ e s' h
    cases ustk with
    | nil =>
      simp only [undo, Except.error.injEq, Prod.mk.injEq] at h
      obtain ⟨-, hs⟩ := h
      subst hs; exact ⟨rfl, rfl⟩
    | cons action rest =>
      cases hr : undoReplay tasks action with
      | ok db' => simp [undo, hr] at h
      | error p =>
        obtain ⟨e0, db'⟩ := p
        simp only [undo, hr, Except.error.injEq, Prod.mk.injEq] at h
        obtain ⟨-, hs⟩ := h
        subst hs; exact ⟨rfl, rfl⟩
  · rintro ⟨tasks, nid, ustk, rstk⟩ e s' h
    cases rstk with
    | nil =>
      simp only [redo, Except.error.injEq, Prod.mk.injEq] at h
      obtain ⟨-, hs⟩ := h
      subst hs; exact ⟨rfl, rfl⟩
    | cons action rest =>
      cases action with
      | delete tid ids => simp [redo] at h
      | modify tid prev new =>
        cases hr : updateTaskWithoutHistory tasks tid (fieldsToUpdates new) with
        | ok db' => simp [redo, hr] at h
        | error p =>
          obtain ⟨e0, db'⟩ := p
          simp only [redo, hr, Except.error.injEq, Prod.mk.injEq] at h
          obtain ⟨-, hs⟩ := h
          subst hs; exact ⟨rfl, rfl⟩
      | create tid =>
        cases hr : restoreTask ⟨tasks, nid, ustk, rest⟩ tid with
        | ok s1 => simp [redo, hr] at h
        | error p =>
          obtain ⟨e0, s1⟩ := p
          simp only [redo, hr, Except.error.injEq, Prod.mk.injEq] at h
          obtain ⟨-, hs⟩ := h
          have hs1 := restoreTask_error_state hr
          subst hs; subst hs1
          exact ⟨rfl, rfl⟩
      | restore tid =>
        cases hr : restoreTask ⟨tasks, nid, ustk, rest⟩ tid with
        | ok s1 => simp [redo, hr] at h
        | error p =>
          obtain ⟨e0, s1⟩ := p
          simp only [redo, hr, Except.error.injEq, Prod.mk.injEq] at h
          obtain ⟨-, hs⟩ := h
          have hs1 := restoreTask_error_state hr
          subst hs; subst hs1
          exact ⟨rfl, rfl⟩

/-- Witness for C10: at the concrete store `c10s` both the undo and the redo
call fail during replay, and the theorem's conclusion holds there. -/
theorem c10_failed_undo_redo_preserves_stacks_witness :
    undo c10s = Except.error (Err.taskNotFound 1, c10s) ∧
    redo c10s = Except.error (Err.taskNotFound 3, c10s) ∧
    (c10s.undoStack = c10s.undoStack ∧ c10s.redoStack = c10s.redoStack) ∧
    (c10s.undoStack = c10s.undoStack ∧ c10s.redoStack = c10s.redoStack) :=
  ⟨rfl, rfl,
    c10_failed_undo_redo_preserves_stacks.1 c10s (Err.taskNotFound 1) c10s rfl,
    c10_failed_undo_redo_preserves_stacks.2 c10s (Err.taskNotFound 3) c10s rfl⟩

/-- Membership in `addUnique`. -/
theorem mem_addUnique {l : List Nat} {x y : Nat} :
    y ∈ addUnique l x ↔ y ∈ l ∨ y = x := by
  unfold addUnique
  by_cases h : l.contains x = true
  · rw [if_pos h]
    have hx : x ∈ l := by simpa using h
    constructor
    · exact Or.inl
    · rintro (hy | rfl)
      · exact hy
      · exact hx
  · rw [if_neg h]
    simp

/-- `addUnique` preserves distinctness. -/
theorem nodup_addUnique {l : List Nat} {x : Nat} (h : l.Nodup) :
    (addUnique l x).Nodup := by
  unfold addUnique
  by_cases hc : l.contains x = true
  · rwa [if_pos hc]
  · rw [if_neg hc]
    have hx : x ∉ l := by simpa using hc
    simpa [List.nodup_append] using ⟨h, hx⟩

/-- Membership in a guarded fold of walk ids. -/
theorem mem_addGuarded {mids acc ids : List Nat} {i : Nat} :
    i ∈ addGuarded mids acc ids ↔ i ∈ acc ∨ (i ∈ ids ∧ i ∉ mids) := by
  induction ids generalizing acc with
  | nil => simp [addGuarded]
  | cons j ids ih =>
    unfold addGuarded at ih ⊢
    simp only [List.foldl_cons]
    by_cases hj : mids.contains j = true
    · rw [if_pos hj]
      have hjm : j ∈ mids := by simpa using hj
      rw [ih]
      constructor
      · rintro (h | h)
        · exact Or.inl h
        · exact Or.inr ⟨List.mem_cons_of_mem _ h.1, h.2⟩
      · rintro (h | ⟨hm, hn⟩)
        · exact Or.inl h
        · rcases List.mem_cons.mp hm with rfl | hm'
          · exact absurd hjm hn
          · exact Or.inr ⟨hm', hn⟩
    · rw [if_neg hj]
      have hjm : j ∉ mids := by simpa using hj
      rw [ih]
      rw [mem_addUnique]
      constructor
      · rintro ((h | rfl) | h)
        · exact Or.inl h
        · exact Or.inr ⟨List.mem_cons_self _ _, hjm⟩
        · exact Or.inr ⟨List.mem_cons_of_mem _ h.1, h.2⟩
      · rintro (h | ⟨hm, hn⟩)
        · exact Or.inl (Or.inl h)
        · rcases List.mem_cons.mp hm with rfl | hm'
          · exact Or.inl (Or.inr rfl)
          · exact Or.inr ⟨hm', hn⟩

/-- The guarded fold preserves distinctness. -/
theorem nodup_addGuarded {mids acc ids : List Nat} (h : acc.Nodup) :
    (addGuarded mids acc ids).Nodup := by
  induction ids generalizing acc with
  | nil => simpa [addGuarded]
  | cons j ids ih =>
    unfold addGuarded at ih ⊢
    simp only [List.foldl_cons]
    by_cases hj : mids.contains j = true
    · rw [if_pos hj]; exact ih h
    · rw [if_neg hj]; exact ih (nodup_addUnique h)

/-- Membership in the family-closure id accumulation: exactly the walk ids
of the matched tasks, minus the matched ids themselves. -/
theorem mem_buildAdditional {all : List Task} {mids : List Nat}
    {matched : List Task} {i : Nat} :
    i ∈ buildAdditional all mids matched ↔
      (∃ m ∈ matched,
        i ∈ ancChainIds (all.length + 1) all m ∨
          i ∈ rawDescIds (all.length + 1) all m) ∧ i ∉ mids := by
  have aux : ∀ (acc : List Nat),
      i ∈ matched.foldl
          (fun acc t =>
            addGuarded mids
              (addGuarded mids acc (ancChainIds (all.length + 1) all t))
              (rawDescIds (all.length + 1) all t))
          acc ↔
        i ∈ acc ∨
          ((∃ m ∈ matched,
            i ∈ ancChainIds (all.length + 1) all m ∨
              i ∈ rawDescIds (all.length + 1) all m) ∧ i ∉ mids) := by
    induction matched with
    | nil => simp
    | cons m matched ih =>
      intro acc
      simp only [List.foldl_cons]
      rw [ih]
      rw [mem_addGuarded, mem_addGuarded]
      constructor
      · rintro (((h | h) | h) | h)
        · exact Or.inl h
        · exact Or.inr ⟨⟨m, List.mem_cons_self _ _, Or.inl h.1⟩, h.2⟩
        · exact Or.inr ⟨⟨m, List.mem_cons_self _ _, Or.inr h.1⟩, h.2⟩
        · obtain ⟨⟨m', hm', hw⟩, hn⟩ := h
          exact Or.inr ⟨⟨m', List.mem_cons_of_mem _ hm', hw⟩, hn⟩
      · rintro (h | ⟨⟨m', hm', hw⟩, hn⟩)
        · exact Or.inl (Or.inl (Or.inl h))
        · rcases List.mem_cons.mp hm' with rfl | hm''
          · rcases hw with hw | hw
            · exact Or.inl (Or.inl (Or.inr ⟨hw, hn⟩))
            · exact Or.inl (Or.inr ⟨hw, hn⟩)
          · exact Or.inr ⟨⟨m', hm'', hw⟩, hn⟩
  unfold buildAdditional
  rw [aux]
  simp

/-- The family-closure id accumulation is duplicate-free. -/
theorem nodup_buildAdditional {all : List Task} {mids : List Nat}
    {matched : List Task} : (buildAdditional all mids matched).Nodup := by
  have aux : ∀ (acc : List Nat), acc.Nodup →
      (matched.foldl
          (fun acc t =>
            addGuarded mids
              (addGuarded mids acc (ancChainIds (all.length + 1) all t))
              (rawDescIds (all.length + 1) all t))
          acc).Nodup := by
    induction matched with
    | nil => intro acc h; simpa using h
    | cons m matched ih =>
      intro acc h
      simp only [List.foldl_cons]
      exact ih _ (nodup_addGuarded (nodup_addGuarded h))
  exact aux [] List.nodup_nil

/-- Looking up a member of a duplicate-id-free arena by its own id finds
exactly that member. -/
theorem getTaskById_of_mem {db : List Task} {t : Task}
    (hnd : (db.map Task.id).Nodup) (ht : t ∈ db) :
    getTaskById db t.id = some t := by
  induction db with
  | nil => simp at ht
  | cons a l ih =>
    unfold getTaskById
    rcases List.mem_cons.mp ht with rfl | ht'
    · rw [List.find?_cons_of_pos _ (by simp)]
    · have hne : a.id ≠ t.id := by
        intro hid
        simp only [List.map_cons, List.nodup_cons] at hnd
        exact hnd.1 (hid ▸ List.mem_map_of_mem Task.id ht')
      rw [List.find?_cons_of_neg _ (by simp [hne])]
      simp only [List.map_cons, List.nodup_cons] at hnd
      exact ih hnd.2 ht'

/-- A successful lookup yields a member carrying the looked-up id. -/
theorem getTaskById_mem {db : List Task} {i : Nat} {t : Task}
    (h : getTaskById db i = some t) : t ∈ db ∧ t.id = i :=
  ⟨List.mem_of_find?_eq_some h, getTaskById_some_id h⟩

/-- Unfolding of the depth-then-id comparator. -/
theorem sortKeyLe_iff {all : List Task} {a b : Task} :
    sortKeyLe all a b = true ↔
      (getTaskDepthSync all a < getTaskDepthSync all b ∨
        (getTaskDepthSync all a = getTaskDepthSync all b ∧ a.id ≤ b.id)) := by
  unfold sortKeyLe
  simp [Bool.or_eq_true, Bool.and_eq_true, decide_eq_true_iff, beq_iff_eq]

/-- The comparator is transitive. -/
theorem sortKeyLe_trans {all : List Task} {a b c : Task}
    (hab : sortKeyLe all a b = true) (hbc : sortKeyLe all b c = true) :
    sortKeyLe all a c = true := by
  rw [sortKeyLe_iff] at hab hbc ⊢
  rcases hab with h1 | ⟨h1, h1'⟩ <;> rcases hbc with h2 | ⟨h2, h2'⟩
  · exact Or.inl (Nat.lt_trans h1 h2)
  · exact Or.inl (h2 ▸ h1)
  · exact Or.inl (h1 ▸ h2)
  · exact Or.inr ⟨h1.trans h2, Nat.le_trans h1' h2'⟩

/-- The comparator is total. -/
theorem sortKeyLe_total (all : List Task) (a b : Task) :
    sortKeyLe all a b = true ∨ sortKeyLe all b a = true := by
  rw [sortKeyLe_iff, sortKeyLe_iff]
  rcases Nat.lt_trichotomy (getTaskDepthSync all a) (getTaskDepthSync all b)
    with h | h | h
  · exact Or.inl (Or.inl h)
  · rcases Nat.le_total a.id b.id with hid | hid
    · exact Or.inl (Or.inr ⟨h, hid⟩)
    · exact Or.inr (Or.inr ⟨h.symm, hid⟩)
  · exact Or.inr (Or.inl h)

/-- On tasks with distinct ids the comparator is antisymmetric. -/
theorem sortKeyLe_asymm_of_ne_id {all : List Task} {a b : Task}
    (hne : a.id ≠ b.id) (hab : sortKeyLe all a b = true) :
    sortKeyLe all b a = false := by
  by_contra hc
  have hba : sortKeyLe all b a = true := by
    cases h : sortKeyLe all b a
    · exact absurd h hc
    · rfl
  rw [sortKeyLe_iff] at hab hba
  rcases hab with h1 | ⟨h1, h1'⟩ <;> rcases hba with h2 | ⟨h2, h2'⟩
  · exact absurd (Nat.lt_trans h1 h2) (Nat.lt_irrefl _)
  · exact absurd (h2 ▸ h1) (Nat.lt_irrefl _)
  · exact absurd (h1 ▸ h2) (Nat.lt_irrefl _)
  · exact hne (Nat.le_antisymm h1' h2')

/-- Sorted insertion produces a permutation of the cons. -/
theorem perm_insertByKey (all : List Task) (x : Task) (l : List Task) :
    (insertByKey all x l).Perm (x :: l) := by
  induction l with
  | nil => exact List.Perm.refl _
  | cons y t ih =>
    unfold insertByKey
    by_cases h : sortKeyLe all x y = true
    · rw [if_pos h]
    · rw [if_neg h]
      exact (ih.cons y).trans (List.Perm.swap x y t)

/-- The sort is a permutation. -/
theorem perm_sortByKey (all : List Task) (l : List Task) :
    (sortByKey all l).Perm l := by
  induction l with
  | nil => exact List.Perm.refl _
  | cons a t ih =>
    unfold sortByKey at ih ⊢
    simp only [List.foldr_cons]
    exact (perm_insertByKey all a _).trans (ih.cons a)

/-- Sorted insertion preserves sortedness. -/
theorem pairwise_insertByKey {all : List Task} {x : Task} {l : List Task}
    (hl : l.Pairwise (fun a b => sortKeyLe all a b = true)) :
    (insertByKey all x l).Pairwise (fun a b => sortKeyLe all a b = true) := by
  induction l with
  | nil => simp [insertByKey]
  | cons y t ih =>
    unfold insertByKey
    rcases List.pairwise_cons.mp hl with ⟨hy, ht⟩
    by_cases h : sortKeyLe all x y = true
    · rw [if_pos h]
      refine List.pairwise_cons.mpr ⟨?_, hl⟩
      intro z hz
      rcases List.mem_cons.mp hz with rfl | hz'
      · exact h
      · exact sortKeyLe_trans h (hy z hz')
    · rw [if_neg h]
      refine List.pairwise_cons.mpr ⟨?_, ih ht⟩
      intro z hz
      have hyx : sortKeyLe all y x = true := by
        rcases sortKeyLe_total all x y with h' | h'
        · exact absurd h' h
        · exact h'
      rcases List.mem_cons.mp ((perm_insertByKey all x t).mem_iff.mp hz)
        with rfl | hz'
      · exact hyx
      · exact hy z hz'

/-- The sort output is sorted. -/
theorem pairwise_sortByKey (all : List Task) (l : List Task) :
    (sortByKey all l).Pairwise (fun a b => sortKeyLe all a b = true) := by
  induction l with
  | nil => simp [sortByKey]
  | cons a t ih =>
    unfold sortByKey at ih ⊢
    simp only [List.foldr_cons]
    exact pairwise_insertByKey ih

/-- Two lists that are strictly sorted by the comparator and have the same
members are equal. -/
theorem sorted_strict_ext {all : List Task} :
    ∀ {l₁ l₂ : List Task},
      l₁.Pairwise (fun a b => sortKeyLe all a b = true ∧ sortKeyLe all b a = false) →
      l₂.Pairwise (fun a b => sortKeyLe all a b = true ∧ sortKeyLe all b a = false) →
      (∀ x, x ∈ l₁ ↔ x ∈ l₂) → l₁ = l₂ := by
  intro l₁
  induction l₁ with
  | nil =>
    intro l₂ _ _ hm
    cases l₂ with
    | nil => rfl
    | cons b t₂ => exact absurd ((hm b).mpr (List.mem_cons_self _ _)) (by simp)
  | cons a t₁ ih =>
    intro l₂ h₁ h₂ hm
    cases l₂ with
    | nil => exact absurd ((hm a).mp (List.mem_cons_self _ _)) (by simp)
    | cons b t₂ =>
      rcases List.pairwise_cons.mp h₁ with ⟨ha, ht₁⟩
      rcases List.pairwise_cons.mp h₂ with ⟨hb, ht₂⟩
      have hab : a = b := by
        by_contra hne
        have haIn : a ∈ b :: t₂ := (hm a).mp (List.mem_cons_self _ _)
        have hbIn : b ∈ a :: t₁ := (hm b).mpr (List.mem_cons_self _ _)
        rcases List.mem_cons.mp haIn with rfl | haT
        · exact hne rfl
        rcases List.mem_cons.mp hbIn with hEq | hbT
        · exact hne hEq.symm
        have h1 := ha b hbT
        have h2 := hb a haT
        rw [h1.1] at h2
        exact absurd h2.2 (by simp)
      subst hab
      have hmt : ∀ x, x ∈ t₁ ↔ x ∈ t₂ := by
        intro x
        constructor
        · intro hx
          have hx2 : x ∈ a :: t₂ := (hm x).mp (List.mem_cons_of_mem _ hx)
          rcases List.mem_cons.mp hx2 with rfl | hx'
          · have := (ha x hx).2
            rw [(ha x hx).1] at this
            simp at this
          · exact hx'
        · intro hx
          have hx1 : x ∈ a :: t₁ := (hm x).mpr (List.mem_cons_of_mem _ hx)
          rcases List.mem_cons.mp hx1 with rfl | hx'
          · have := (hb x hx).2
            rw [(hb x hx).1] at this
            simp at this
          · exact hx'
      rw [ih ht₁ ht₂ hmt]

/-- C7: on every snapshot whose non-deleted tasks carry distinct ids (the
object store is keyed by id), `filterTasks` returns exactly the tasks
matching all given predicates plus every ancestor up the `parentId` chain
and every descendant down the `childIds` tree of each match, ordered by
ascending depth with ties broken by ascending id — that is, it equals the
specification-side `filterSpec`. -/
theorem c7_filter_family_closure_sorted :
    ∀ (db : List Task) (f : Filters),
      ((getAllTasks db).map Task.id).Nodup →
      filterTasks db f = filterSpec db f := by
  intro db f hnd
  have hallnd : (getAllTasks db).Nodup := List.Nodup.of_map Task.id hnd
  have hinj := List.inj_on_of_nodup_map hnd
  set all := getAllTasks db with hall
  set matched := all.filter (taskMatches f) with hmatched
  set mids := matched.map (fun t => t.id) with hmids
  set additional := buildAdditional all mids matched with hadd
  set resolved :=
    additional.filterMap (fun i => all.find? (fun t => t.id == i)) with hres
  set spec := all.filter (familyClosurePred all f) with hspecdef
  have hmemF : ∀ t : Task,
      t ∈ matched ++ resolved ↔
        (t ∈ all ∧ familyClosurePred all f t = true) := by
    intro t
    rw [List.mem_append]
    constructor
    · rintro (h | h)
      · rcases List.mem_filter.mp h with ⟨hin, hmt⟩
        refine ⟨hin, ?_⟩
        unfold familyClosurePred
        rw [hmt]
        simp
      · rcases List.mem_filterMap.mp h with ⟨i, hiadd, hfind⟩
        have hfind' : getTaskById all i = some t := hfind
        obtain ⟨hmem, hid⟩ := getTaskById_mem hfind'
        rcases mem_buildAdditional.mp hiadd with ⟨⟨m, hmmem, hw⟩, hnmid⟩
        rcases List.mem_filter.mp hmmem with ⟨hmall, hmmatch⟩
        refine ⟨hmem, ?_⟩
        unfold familyClosurePred
        rcases hw with hw | hw
        · have hany :
              all.any (fun m =>
                taskMatches f m &&
                  (ancChainIds (all.length + 1) all m).contains t.id)
                = true := by
            rw [List.any_eq_true]
            refine ⟨m, hmall, ?_⟩
            rw [Bool.and_eq_true]
            refine ⟨hmmatch, ?_⟩
            rw [hid]
            simpa using hw
          rw [hany]
          simp
        · have hany :
              all.any (fun m =>
                taskMatches f m &&
                  (rawDescIds (all.length + 1) all m).contains t.id)
                = true := by
            rw [List.any_eq_true]
            refine ⟨m, hmall, ?_⟩
            rw [Bool.and_eq_true]
            refine ⟨hmmatch, ?_⟩
            rw [hid]
            simpa using hw
          rw [hany]
          simp
    · rintro ⟨hin, hpred⟩
      unfold familyClosurePred at hpred
      rw [Bool.or_eq_true, Bool.or_eq_true] at hpred
      by_cases hm : taskMatches f t = true
      · exact Or.inl (List.mem_filter.mpr ⟨hin, hm⟩)
      · have hnotmid : t.id ∉ mids := by
          intro hmid
          rcases List.mem_map.mp hmid with ⟨u, hu, huid⟩
          rcases List.mem_filter.mp hu with ⟨huall, humatch⟩
          have hut : u = t := hinj huall hin huid
          rw [hut] at humatch
          exact hm humatch
        have hresolve : all.find? (fun u => u.id == t.id) = some t :=
          getTaskById_of_mem hnd hin
        rcases hpred with (hpm | hanc) | hdesc
        · exact absurd hpm hm
        · rw [List.any_eq_true] at hanc
          obtain ⟨m, hmall, hcond⟩ := hanc
          rw [Bool.and_eq_true] at hcond
          have hmmatched : m ∈ matched :=
            List.mem_filter.mpr ⟨hmall, hcond.1⟩
          have hIn : t.id ∈ additional :=
            mem_buildAdditional.mpr
              ⟨⟨m, hmmatched, Or.inl (by simpa using hcond.2)⟩, hnotmid⟩
          exact Or.inr (List.mem_filterMap.mpr ⟨t.id, hIn, hresolve⟩)
        · rw [List.any_eq_true] at hdesc
          obtain ⟨m, hmall, hcond⟩ := hdesc
          rw [Bool.and_eq_true] at hcond
          have hmmatched : m ∈ matched :=
            List.mem_filter.mpr ⟨hmall, hcond.1⟩
          have hIn : t.id ∈ additional :=
            mem_buildAdditional.mpr
              ⟨⟨m, hmmatched, Or.inr (by simpa using hcond.2)⟩, hnotmid⟩
          exact Or.inr (List.mem_filterMap.mpr ⟨t.id, hIn, hresolve⟩)
  have hndF : (matched ++ resolved).Nodup := by
    have h1 : matched.Nodup := List.Nodup.filter _ hallnd
    have h2 : resolved.Nodup := by
      refine List.Nodup.filterMap ?_ nodup_buildAdditional
      intro a a' b hb hb'
      have hba : b.id = a := getTaskById_some_id (hb : getTaskById all a = some b)
      have hba' : b.id = a' :=
        getTaskById_some_id (hb' : getTaskById all a' = some b)
      rw [← hba, hba']
    refine List.Nodup.append h1 h2 ?_
    intro t htm htr
    rcases List.mem_filterMap.mp htr with ⟨i, hiadd, hfind⟩
    have hid : t.id = i := getTaskById_some_id (hfind : getTaskById all i = some t)
    rcases mem_buildAdditional.mp hiadd with ⟨-, hnmid⟩
    exact hnmid (hid ▸ List.mem_map_of_mem (fun t => t.id) htm)
  have hndS : spec.Nodup := List.Nodup.filter _ hallnd
  have hmemS : ∀ t : Task,
      t ∈ spec ↔ (t ∈ all ∧ familyClosurePred all f t = true) := by
    intro t
    exact List.mem_filter
  have strictify : ∀ l : List Task, l.Nodup → (∀ x ∈ l, x ∈ all) →
      l.Pairwise (fun a b => sortKeyLe all a b = true) →
      l.Pairwise
        (fun a b => sortKeyLe all a b = true ∧ sortKeyLe all b a = false) := by
    intro l hl hsub hp
    have hcomb := hp.and hl
    refine List.Pairwise.imp_of_mem ?_ hcomb
    intro a b ha hb hr
    refine ⟨hr.1, sortKeyLe_asymm_of_ne_id ?_ hr.1⟩
    intro hid
    exact hr.2 (hinj (hsub a ha) (hsub b hb) hid)
  have hfilterEq : filterTasks db f = sortByKey all (matched ++ resolved) := rfl
  have hspecEq : filterSpec db f = sortByKey all spec := rfl
  rw [hfilterEq, hspecEq]
  apply sorted_strict_ext
  · refine strictify _ ?_ ?_ (pairwise_sortByKey all _)
    · exact ((perm_sortByKey all _).nodup_iff).mpr hndF
    · intro x hx
      exact ((hmemF x).mp ((perm_sortByKey all _).mem_iff.mp hx)).1
  · refine strictify _ ?_ ?_ (pairwise_sortByKey all _)
    · exact ((perm_sortByKey all _).nodup_iff).mpr hndS
    · intro x hx
      exact ((hmemS x).mp ((perm_sortByKey all _).mem_iff.mp hx)).1
  · intro x
    rw [(perm_sortByKey all _).mem_iff, (perm_sortByKey all _).mem_iff]
    rw [hmemF x, hmemS x]

/-- Witness for C7: on the three-tier chain where only the grandchild
matches the project predicate, the filter returns grandparent, parent,
grandchild in that order, and agrees with the specification-side
description. -/
theorem c7_filter_family_closure_sorted_witness :
    ((getAllTasks c7w).map Task.id).Nodup ∧
    filterTasks c7w c7f = filterSpec c7w c7f ∧
    (filterTasks c7w c7f).map (fun t => t.id) = [1, 2, 3] :=
  ⟨by decide, c7_filter_family_closure_sorted c7w c7f (by decide), by decide⟩

/-- Elimination for the cascade well-formedness walker on a cons cell. -/
theorem cascadeOk_cons {fuel : Nat} {db : List Task} {pid : Option Nat}
    {tid : Nat} {rest : List Nat}
    (h : cascadeOk (fuel + 1) db pid (tid :: rest) = true) :
    ∃ task, getTaskById db tid = some task ∧ task.parentTaskId = pid ∧
      task.deleted = false ∧
      cascadeOk fuel db (some tid) task.childTaskIds = true ∧
      cascadeOk fuel db pid rest = true := by
  unfold cascadeOk at h
  rw [Bool.and_eq_true] at h
  obtain ⟨h1, h2⟩ := h
  cases hg : getTaskById db tid with
  | none => rw [hg] at h1; simp at h1
  | some task =>
    rw [hg] at h1
    rw [Bool.and_eq_true, Bool.and_eq_true] at h1
    exact ⟨task, rfl, by simpa using h1.1.1, by simpa using h1.1.2, h1.2, h2⟩

/-- Unfolding of the subtree id list on a cons cell with a found head. -/
theorem subtreeMany_cons {fuel : Nat} {db : List Task} {tid : Nat}
    {rest : List Nat} {task : Task} (hg : getTaskById db tid = some task) :
    subtreeMany (fuel + 1) db (tid :: rest)
      = (tid :: subtreeMany fuel db task.childTaskIds) ++
          subtreeMany fuel db rest := by
  conv_lhs => rw [subtreeMany]
  rw [hg]

/-- The detach step does not touch records other than the old parent's. -/
theorem detach_lookup_other {db : List Task} {t : Task} {y : Nat}
    (hy : ∀ pid, t.parentTaskId = some pid → y ≠ pid) :
    getTaskById (detachFromOldParent db t) y = getTaskById db y := by
  unfold detachFromOldParent
  cases hp : t.parentTaskId with
  | none => simp only [hp]
  | some pid =>
    simp only [hp]
    cases hl : getTaskById db pid with
    | none => simp only [hl]
    | some op =>
      simp only [hl]
      have hid : op.id = pid := getTaskById_some_id hl
      rw [getTaskById_save_other]
      simp only [hid]
      exact hy pid hp

/-- The subtree walk and the well-formedness check read only the records of
the subtree members, so they are stable under writes outside the subtree. -/
theorem cascade_stable :
    ∀ (fuel : Nat) (db db' : List Task) (pid : Option Nat) (l : List Nat),
      cascadeOk fuel db pid l = true →
      (∀ y ∈ subtreeMany fuel db l, getTaskById db' y = getTaskById db y) →
      subtreeMany fuel db' l = subtreeMany fuel db l ∧
        cascadeOk fuel db' pid l = true := by
  intro fuel
  induction fuel with
  | zero =>
    intro db db' pid l h hagree
    have : l = [] := by
      unfold cascadeOk at h
      simpa using h
    subst this
    exact ⟨rfl, by simp [cascadeOk]⟩
  | succ fuel ih =>
    intro db db' pid l h hagree
    cases l with
    | nil => exact ⟨rfl, by simp [cascadeOk]⟩
    | cons tid rest =>
      obtain ⟨task, hg, hpar, hdel, hcC, hcR⟩ := cascadeOk_cons h
      rw [subtreeMany_cons hg] at hagree
      have hgtid : getTaskById db' tid = some task := by
        rw [hagree tid (by simp), hg]
      have hagC : ∀ y ∈ subtreeMany fuel db task.childTaskIds,
          getTaskById db' y = getTaskById db y := by
        intro y hy
        exact hagree y (by simp [hy])
      have hagR : ∀ y ∈ subtreeMany fuel db rest,
          getTaskById db' y = getTaskById db y := by
        intro y hy
        exact hagree y (by simp [hy])
      obtain ⟨heqC, hokC⟩ := ih db db' (some tid) task.childTaskIds hcC hagC
      obtain ⟨heqR, hokR⟩ := ih db db' pid rest hcR hagR
      constructor
      · rw [subtreeMany_cons hg, subtreeMany_cons hgtid, heqC, heqR]
      · unfold cascadeOk
        rw [hgtid]
        rw [Bool.and_eq_true, Bool.and_eq_true, Bool.and_eq_true]
        exact ⟨⟨⟨by simp [hpar], by simp [hdel]⟩, hokC⟩, hokR⟩

/-- Every subtree member exists, is not deleted, and points either at the
designated parent or at another (distinct) subtree member. -/
theorem cascade_members :
    ∀ (fuel : Nat) (db : List Task) (pid : Option Nat) (l : List Nat),
      cascadeOk fuel db pid l = true →
      (subtreeMany fuel db l).Nodup →
      ∀ x ∈ subtreeMany fuel db l,
        ∃ tx, getTaskById db x = some tx ∧ tx.deleted = false ∧
          (tx.parentTaskId = pid ∨
            ∃ q ∈ subtreeMany fuel db l, tx.parentTaskId = some q ∧ q ≠ x) := by
  intro fuel
  induction fuel with
  | zero =>
    intro db pid l h hnd x hx
    simp [subtreeMany] at hx
  | succ fuel ih =>
    intro db pid l h hnd x hx
    cases l with
    | nil => simp [subtreeMany] at hx
    | cons tid rest =>
      obtain ⟨task, hg, hpar, hdel, hcC, hcR⟩ := cascadeOk_cons h
      rw [subtreeMany_cons hg] at hx hnd ⊢
      rw [List.nodup_append] at hnd
      obtain ⟨hnd1, hndR, hdis⟩ := hnd
      rw [List.nodup_cons] at hnd1
      obtain ⟨htidC, hndC⟩ := hnd1
      rcases List.mem_append.mp hx with hx | hx
      · rcases List.mem_cons.mp hx with hxE | hx'
        · subst hxE
          exact ⟨task, hg, hdel, Or.inl hpar⟩
        · obtain ⟨tx, htx, htd, hor⟩ :=
            ih db (some tid) task.childTaskIds hcC hndC x hx'
          refine ⟨tx, htx, htd, ?_⟩
          rcases hor with hp | ⟨q, hq, hpq, hqx⟩
          · refine Or.inr ⟨tid, by simp, hp, ?_⟩
            intro hE
            exact htidC (hE ▸ hx')
          · exact Or.inr ⟨q, by simp [hq], hpq, hqx⟩
      · obtain ⟨tx, htx, htd, hor⟩ := ih db pid rest hcR hndR x hx
        refine ⟨tx, htx, htd, ?_⟩
        rcases hor with hp | ⟨q, hq, hpq, hqx⟩
        · exact Or.inl hp
        · exact Or.inr ⟨q, by simp [hq], hpq, hqx⟩

/-- Characterization of a well-formed cascade delete over a worklist: it
succeeds, collects exactly the pre-order subtree ids, marks each member's
entry record deleted (the stale snapshot clobbers the intermediate child
detaches), and touches no record outside the subtree except the designated
parent's. -/
theorem deleteMany_spec :
    ∀ (fuel : Nat) (db : List Task) (pid : Nat) (l : List Nat),
      cascadeOk fuel db (some pid) l = true →
      (subtreeMany fuel db l).Nodup →
      pid ∉ subtreeMany fuel db l →
      ∃ db', deleteMany fuel db l = Except.ok (db', subtreeMany fuel db l) ∧
        (∀ y, y ∉ subtreeMany fuel db l → y ≠ pid →
          getTaskById db' y = getTaskById db y) ∧
        (∀ x ∈ subtreeMany fuel db l, ∀ tx, getTaskById db x = some tx →
          getTaskById db' x = some (markDeleted tx)) := by
  intro fuel
  induction fuel with
  | zero =>
    intro db pid l h hnd hpid
    have hl : l = [] := by
      unfold cascadeOk at h
      simpa using h
    subst hl
    exact ⟨db, rfl, fun y _ _ => rfl, fun x hx => by simp [subtreeMany] at hx⟩
  | succ fuel ih =>
    intro db pid l h hnd hpid
    cases l with
    | nil =>
      exact ⟨db, rfl, fun y _ _ => rfl, fun x hx => by simp [subtreeMany] at hx⟩
    | cons tid rest =>
      obtain ⟨task, hg, hpar, hdel, hcC, hcR⟩ := cascadeOk_cons h
      have htid : task.id = tid := getTaskById_some_id hg
      rw [subtreeMany_cons hg] at hnd hpid ⊢
      rw [List.nodup_append] at hnd
      obtain ⟨hnd1, hndR, hdis⟩ := hnd
      rw [List.nodup_cons] at hnd1
      obtain ⟨htidC, hndC⟩ := hnd1
      rw [List.mem_append, List.mem_cons] at hpid
      push_neg at hpid
      obtain ⟨⟨hpt, hpC⟩, hpR⟩ := hpid
      obtain ⟨db1, hrunC, h1C, h2C⟩ :=
        ih db tid task.childTaskIds hcC hndC htidC
      have hframe2 : ∀ y : Nat, y ≠ pid →
          getTaskById (detachFromOldParent db1 task) y = getTaskById db1 y := by
        intro y hy
        exact detach_lookup_other (by
          intro pid' hp'
          rw [hpar] at hp'
          injection hp' with hp''
          rw [← hp'']
          exact hy)
      have hframe3 : ∀ y : Nat, y ≠ tid →
          getTaskById
              (save (detachFromOldParent db1 task) (markDeleted task)) y
            = getTaskById (detachFromOldParent db1 task) y := by
        intro y hy
        apply getTaskById_save_other
        show y ≠ (markDeleted task).id
        simpa [markDeleted, htid] using hy
      have hself3 :
          getTaskById
              (save (detachFromOldParent db1 task) (markDeleted task)) tid
            = some (markDeleted task) := by
        have := getTaskById_save_self (detachFromOldParent db1 task)
          (markDeleted task)
        simpa [markDeleted, htid] using this
      have htidR : tid ∉ subtreeMany fuel db rest := by
        intro hx
        exact hdis (List.mem_cons_self _ _) hx
      have hCdisR : ∀ y ∈ subtreeMany fuel db rest,
          y ∉ subtreeMany fuel db task.childTaskIds := by
        intro y hy hyC
        exact hdis (List.mem_cons_of_mem _ hyC) hy
      have hagreeR : ∀ y ∈ subtreeMany fuel db rest,
          getTaskById
              (save (detachFromOldParent db1 task) (markDeleted task)) y
            = getTaskById db y := by
        intro y hy
        have hytid : y ≠ tid := fun hE => htidR (hE ▸ hy)
        have hypid : y ≠ pid := fun hE => hpR (hE ▸ hy)
        rw [hframe3 y hytid, hframe2 y hypid,
          h1C y (hCdisR y hy) hytid]
      obtain ⟨heqR, hokR⟩ :=
        cascade_stable fuel db
          (save (detachFromOldParent db1 task) (markDeleted task))
          (some pid) rest hcR hagreeR
      obtain ⟨db4, hrunR, h1R, h2R⟩ :=
        ih (save (detachFromOldParent db1 task) (markDeleted task)) pid rest
          hokR (by rw [heqR]; exact hndR) (by rw [heqR]; exact hpR)
      rw [heqR] at hrunR h1R h2R
      refine ⟨db4, ?_, ?_, ?_⟩
      · conv_lhs => rw [deleteMany]
        rw [hg]
        simp only [hrunC, hrunR]
      · intro y hy hypid
        rw [List.mem_append, List.mem_cons] at hy
        push_neg at hy
        obtain ⟨⟨hyt, hyC⟩, hyR⟩ := hy
        rw [h1R y hyR hypid, hframe3 y hyt, hframe2 y hypid,
          h1C y hyC hyt]
      · intro x hx tx htx
        rw [List.mem_append] at hx
        rcases hx with hx | hx
        · rcases List.mem_cons.mp hx with rfl | hxC
          · rw [hg] at htx
            have : tx = task := by injection htx with hh; exact hh.symm
            subst this
            have hxR : x ∉ subtreeMany fuel db rest := htidR
            have hxpid : x ≠ pid := fun hE => hpt hE.symm
            rw [h1R x hxR hxpid, hself3]
          · have hxR : x ∉ subtreeMany fuel db rest := fun hy =>
              hdis (List.mem_cons_of_mem _ hxC) hy
            have hxpid : x ≠ pid := fun hE => hpC (hE ▸ hxC)
            have hxt : x ≠ tid := fun hE => htidC (hE ▸ hxC)
            rw [h1R x hxR hxpid, hframe3 x hxt, hframe2 x hxpid,
              h2C x hxC tx htx]
        · have := hagreeR x hx
          rw [htx] at this
          exact h2R x hx tx this

/-- A history-free restore of a deleted task whose parent (if any) is
itself still deleted: the record is unmarked in place, and the re-attach to
the parent's `childTaskIds` is skipped. -/
theorem restoreTaskWithoutHistory_deleted_parent
    {D : List Task} {tid : Nat} {t0 : Task}
    (hl : getTaskById D tid = some t0)
    (hdel : t0.deleted = true)
    (hparOk : ∀ pid, t0.parentTaskId = some pid →
      pid ≠ tid ∧ ∀ tp, getTaskById D pid = some tp → tp.deleted = true) :
    restoreTaskWithoutHistory D tid = save D (clearDeleted t0) := by
  have htid : t0.id = tid := getTaskById_some_id hl
  unfold restoreTaskWithoutHistory
  simp only [hl]
  rw [if_neg (by simp [hdel])]
  cases hp : t0.parentTaskId with
  | none => simp only [hp]
  | some pid =>
    simp only [hp]
    obtain ⟨hpt, hpdel⟩ := hparOk pid hp
    have hlook : getTaskById (save D (clearDeleted t0)) pid = getTaskById D pid := by
      apply getTaskById_save_other
      show pid ≠ (clearDeleted t0).id
      simpa [clearDeleted, htid] using hpt
    rw [hlook]
    cases hq : getTaskById D pid with
    | none => simp only
    | some tp =>
      simp only
      rw [if_neg (by simp [hpdel tp hq])]

/-- Characterization of the undo replay of a cascade delete: folding the
history-free restore over the reversed subtree list unmarks every subtree
member in place (each member is processed before its still-deleted parent,
so no re-attach happens) and touches nothing else. -/
theorem restore_fold_spec :
    ∀ (fuel : Nat) (db : List Task) (pid : Nat) (l : List Nat) (D : List Task),
      cascadeOk fuel db (some pid) l = true →
      (subtreeMany fuel db l).Nodup →
      pid ∉ subtreeMany fuel db l →
      (∀ x ∈ subtreeMany fuel db l, ∀ tx, getTaskById db x = some tx →
        getTaskById D x = some (markDeleted tx)) →
      (∀ tp, getTaskById D pid = some tp → tp.deleted = true) →
      (∀ y, y ∉ subtreeMany fuel db l →
        getTaskById
            ((subtreeMany fuel db l).reverse.foldl restoreTaskWithoutHistory D)
            y
          = getTaskById D y) ∧
      (∀ x ∈ subtreeMany fuel db l, ∀ tx, getTaskById db x = some tx →
        getTaskById
            ((subtreeMany fuel db l).reverse.foldl restoreTaskWithoutHistory D)
            x
          = some (clearDeleted tx)) := by
  intro fuel
  induction fuel with
  | zero =>
    intro db pid l D h hnd hpid hmarks hpdel
    have hl : l = [] := by
      unfold cascadeOk at h
      simpa using h
    subst hl
    exact ⟨fun y _ => rfl, fun x hx => by simp [subtreeMany] at hx⟩
  | succ fuel ih =>
    intro db pid l D h hnd hpid hmarks hpdel
    cases l with
    | nil => exact ⟨fun y _ => rfl, fun x hx => by simp [subtreeMany] at hx⟩
    | cons tid rest =>
      obtain ⟨task, hg, hpar, hdel, hcC, hcR⟩ := cascadeOk_cons h
      have htid : task.id = tid := getTaskById_some_id hg
      rw [subtreeMany_cons hg] at hnd hpid hmarks ⊢
      rw [List.nodup_append] at hnd
      obtain ⟨hnd1, hndR, hdis⟩ := hnd
      rw [List.nodup_cons] at hnd1
      obtain ⟨htidC, hndC⟩ := hnd1
      rw [List.mem_append, List.mem_cons] at hpid
      push_neg at hpid
      obtain ⟨⟨hpt, hpC⟩, hpR⟩ := hpid
      have htidR : tid ∉ subtreeMany fuel db rest := by
        intro hx
        exact hdis (List.mem_cons_self _ _) hx
      have hCdisR : ∀ {y}, y ∈ subtreeMany fuel db task.childTaskIds →
          y ∉ subtreeMany fuel db rest := by
        intro y hyC hy
        exact hdis (List.mem_cons_of_mem _ hyC) hy
      have hsplit :
          ((tid :: subtreeMany fuel db task.childTaskIds) ++
              subtreeMany fuel db rest).reverse
            = (subtreeMany fuel db rest).reverse ++
                ((subtreeMany fuel db task.childTaskIds).reverse ++ [tid]) := by
        rw [List.reverse_append, List.reverse_cons]
      rw [hsplit, List.foldl_append, List.foldl_append]
      obtain ⟨haR, hbR⟩ :=
        ih db pid rest D hcR hndR hpR
          (fun x hx tx htx => hmarks x (by simp [hx]) tx htx) hpdel
      set Da :=
        (subtreeMany fuel db rest).reverse.foldl restoreTaskWithoutHistory D
        with hDa
      obtain ⟨haC, hbC⟩ :=
        ih db tid task.childTaskIds Da hcC hndC htidC
          (fun x hx tx htx => by
            rw [haR x (hCdisR hx)]
            exact hmarks x (by simp [hx]) tx htx)
          (fun tp htp => by
            rw [haR tid htidR] at htp
            have := hmarks tid (by simp) task hg
            rw [this] at htp
            have htp' : tp = markDeleted task := by
              injection htp with hh
              exact hh.symm
            rw [htp']
            rfl)
      set Db :=
        (subtreeMany fuel db task.childTaskIds).reverse.foldl
          restoreTaskWithoutHistory Da
        with hDb
      have hlookTid : getTaskById Db tid = some (markDeleted task) := by
        rw [haC tid htidC, haR tid htidR]
        exact hmarks tid (by simp) task hg
      have hstep :
          List.foldl restoreTaskWithoutHistory Db [tid]
            = save Db (clearDeleted (markDeleted task)) := by
        simp only [List.foldl_cons, List.foldl_nil]
        apply restoreTaskWithoutHistory_deleted_parent hlookTid rfl
        intro pid' hp'
        have hp'' : pid' = pid := by
          have hpp : task.parentTaskId = some pid' := hp'
          rw [hpar] at hpp
          injection hpp with hh
          exact hh.symm
        rw [hp'']
        constructor
        · intro hE
          exact hpt hE
        · intro tp htp
          rw [haC pid hpC, haR pid hpR] at htp
          exact hpdel tp htp
      rw [hstep]
      have hcid : (clearDeleted (markDeleted task)).id = tid := by
        simpa [clearDeleted, markDeleted] using htid
      constructor
      · intro y hy
        rw [List.mem_append, List.mem_cons] at hy
        push_neg at hy
        obtain ⟨⟨hyt, hyC⟩, hyR⟩ := hy
        rw [getTaskById_save_other _ _ (by rw [hcid]; exact hyt),
          haC y hyC, haR y hyR]
      · intro x hx tx htx
        rw [List.mem_append] at hx
        rcases hx with hx | hx
        · rcases List.mem_cons.mp hx with hxE | hxC
          · subst hxE
            rw [hg] at htx
            have htxe : tx = task := by injection htx with hh; exact hh.symm
            subst htxe
            have hss := getTaskById_save_self Db (clearDeleted (markDeleted tx))
            rw [hcid] at hss
            rw [hss]
            rfl
          · have hxt : x ≠ tid := fun hE => htidC (hE ▸ hxC)
            rw [getTaskById_save_other _ _ (by rw [hcid]; exact hxt)]
            exact hbC x hxC tx htx
        · have hxt : x ≠ tid := fun hE => htidR (hE ▸ hx)
          have hxC : x ∉ subtreeMany fuel db task.childTaskIds := by
            intro hc
            exact hCdisR hc hx
          rw [getTaskById_save_other _ _ (by rw [hcid]; exact hxt),
            haC x hxC]
          exact hbR x hx tx htx

/-- In the pre-order subtree list, no earlier entry's record has a later
entry as its parent: parents always precede their children. -/
theorem cascade_pairwise :
    ∀ (fuel : Nat) (db : List Task) (pid : Nat) (l : List Nat),
      cascadeOk fuel db (some pid) l = true →
      (subtreeMany fuel db l).Nodup →
      pid ∉ subtreeMany fuel db l →
      (subtreeMany fuel db l).Pairwise
        (fun a b => ∀ ta, getTaskById db a = some ta →
          ta.parentTaskId ≠ some b) := by
  intro fuel
  induction fuel with
  | zero =>
    intro db pid l h hnd hpid
    have hl : l = [] := by
      unfold cascadeOk at h
      simpa using h
    subst hl
    simp [subtreeMany]
  | succ fuel ih =>
    intro db pid l h hnd hpid
    cases l with
    | nil => simp [subtreeMany]
    | cons tid rest =>
      obtain ⟨task, hg, hpar, hdel, hcC, hcR⟩ := cascadeOk_cons h
      rw [subtreeMany_cons hg] at hnd hpid ⊢
      rw [List.nodup_append] at hnd
      obtain ⟨hnd1, hndR, hdis⟩ := hnd
      rw [List.nodup_cons] at hnd1
      obtain ⟨htidC, hndC⟩ := hnd1
      rw [List.mem_append, List.mem_cons] at hpid
      push_neg at hpid
      obtain ⟨⟨hpt, hpC⟩, hpR⟩ := hpid
      rw [List.pairwise_append]
      refine ⟨?_, ih db pid rest hcR hndR hpR, ?_⟩
      · rw [List.pairwise_cons]
        constructor
        · intro b hb ta hta hpb
          rw [hg] at hta
          have hte : ta = task := by injection hta with hh; exact hh.symm
          rw [hte, hpar] at hpb
          injection hpb with hpb'
          exact hpC (hpb' ▸ hb)
        · exact ih db tid task.childTaskIds hcC hndC htidC
      · intro a ha b hb
        intro ta hta hpb
        rcases List.mem_cons.mp ha with haE | haC
        · subst haE
          rw [hg] at hta
          have hte : ta = task := by injection hta with hh; exact hh.symm
          rw [hte, hpar] at hpb
          injection hpb with hpb'
          exact hpR (hpb' ▸ hb)
        · obtain ⟨tx, htx, -, hor⟩ :=
            cascade_members fuel db (some tid) task.childTaskIds hcC hndC a haC
          rw [htx] at hta
          have hte : ta = tx := by injection hta with hh; exact hh.symm
          subst hte
          rcases hor with hp | ⟨q, hq, hpq, -⟩
          · rw [hp] at hpb
            injection hpb with hpb'
            exact hdis (List.mem_cons_self _ _) (hpb' ▸ hb)
          · rw [hpq] at hpb
            injection hpb with hpb'
            exact hdis (List.mem_cons_of_mem _ hq) (hpb' ▸ hb)

/-- Filtering an id out of a list leaves a list not containing it. -/
theorem filter_ne_contains_eq_false (l : List Nat) (n : Nat) :
    (l.filter (fun i => i != n)).contains n = false := by
  rw [Bool.eq_false_iff]
  intro hc
  have hmem : n ∈ l.filter (fun i => i != n) := by
    rw [List.contains_eq_any_beq] at hc
    rcases List.any_eq_true.mp hc with ⟨m, hm, hmn⟩
    have hnm : m = n := by
      rw [Nat.beq_eq_true_eq] at hmn
      exact hmn.symm
    exact hnm ▸ hm
  rcases List.mem_filter.mp hmem with ⟨-, hne⟩
  simp at hne

/-- `recordAction` always leaves the recorded action on top of the undo
stack. -/
theorem recordAction_head (s : Store) (a : Action) :
    ∃ l', (recordAction s a).undoStack = a :: l' := by
  show ∃ l',
    (if (a :: s.undoStack).length > maxHistorySize
      then (a :: s.undoStack).dropLast else (a :: s.undoStack)) = a :: l'
  by_cases h : (a :: s.undoStack).length > maxHistorySize
  · rw [if_pos h]
    cases hs : s.undoStack with
    | nil =>
      rw [hs] at h
      simp [maxHistorySize] at h
    | cons b l =>
      exact ⟨(b :: l).dropLast, by simp [List.dropLast]⟩
  · rw [if_neg h]
    exact ⟨s.undoStack, rfl⟩

/-- Unfolding `undo` at a store whose stack head replays successfully. -/
theorem undo_cons {s : Store} {a : Action} {rest : List Action}
    {db' : List Task}
    (hs : s.undoStack = a :: rest)
    (hr : undoReplay s.tasks a = Except.ok db') :
    undo s
      = Except.ok
          { s with tasks := db', undoStack := rest, redoStack := a :: s.redoStack } := by
  unfold undo
  simp only [hs, hr]

/-- C2 (amended): a cascade delete immediately followed by undo restores the
pre-delete set of non-deleted tasks with identical ids, parent links, child
id sets and statuses, provided the whole child tree of the deleted task
(itself included) was non-deleted, well linked and duplicate free before
the call; moreover the recorded affected set lists every task before its
descendants (no member's record names a later member as parent), and each
non-root member's parent is itself a member. -/
theorem c2_amended_cascade_delete_undo_roundtrip :
    ∀ (s : Store) (rootId : Nat) (r : Task),
      getTaskById s.tasks rootId = some r →
      r.deleted = false →
      cascadeOk (deleteFuel s.tasks) s.tasks (some rootId) r.childTaskIds = true →
      (rootId ::
        subtreeMany (deleteFuel s.tasks) s.tasks r.childTaskIds).Nodup →
      (∀ p, r.parentTaskId = some p →
        p ∉ (rootId ::
          subtreeMany (deleteFuel s.tasks) s.tasks r.childTaskIds) ∧
        ∀ tp, getTaskById s.tasks p = some tp → tp.deleted = false →
          rootId ∈ tp.childTaskIds) →
      ∃ s1 s2,
        deleteTask s rootId true
          = Except.ok (s1,
              rootId ::
                subtreeMany (deleteFuel s.tasks) s.tasks r.childTaskIds) ∧
        undo s1 = Except.ok s2 ∧
        (∀ y : Nat,
          (getTaskById s2.tasks y = none ↔ getTaskById s.tasks y = none) ∧
          (∀ t2 t0, getTaskById s2.tasks y = some t2 →
            getTaskById s.tasks y = some t0 →
            t2.deleted = t0.deleted ∧
            (t0.deleted = false →
              t2.id = t0.id ∧ t2.parentTaskId = t0.parentTaskId ∧
                t2.status = t0.status ∧
                (∀ c, c ∈ t2.childTaskIds ↔ c ∈ t0.childTaskIds)))) ∧
        (∀ x ∈ (rootId ::
            subtreeMany (deleteFuel s.tasks) s.tasks r.childTaskIds),
          x ≠ rootId →
          ∃ tx px, getTaskById s.tasks x = some tx ∧
            tx.parentTaskId = some px ∧
            px ∈ (rootId ::
              subtreeMany (deleteFuel s.tasks) s.tasks r.childTaskIds) ∧
            px ≠ x) ∧
        (rootId ::
          subtreeMany (deleteFuel s.tasks) s.tasks r.childTaskIds).Pairwise
          (fun a b => ∀ ta, getTaskById s.tasks a = some ta →
            ta.parentTaskId ≠ some b) := by
  intro s rootId r hroot hrdel hcasc hnd hparent
  have hrid : r.id = rootId := getTaskById_some_id hroot
  set F := deleteFuel s.tasks with hF
  set sub := subtreeMany F s.tasks r.childTaskIds with hsubdef
  rw [List.nodup_cons] at hnd
  obtain ⟨hrootSub, hndSub⟩ := hnd
  obtain ⟨db1, hrun, h1, h2⟩ :=
    deleteMany_spec F s.tasks rootId r.childTaskIds hcasc hndSub hrootSub
  rw [← hsubdef] at hrun h1 h2
  set db2 := detachFromOldParent db1 r with hdb2
  set db3 := save db2 (markDeleted r) with hdb3
  have hd2frame : ∀ y, (∀ p, r.parentTaskId = some p → y ≠ p) →
      getTaskById db2 y = getTaskById db1 y := by
    intro y hy
    exact detach_lookup_other hy
  have hd3other : ∀ y, y ≠ rootId →
      getTaskById db3 y = getTaskById db2 y := by
    intro y hy
    apply getTaskById_save_other
    rw [show (markDeleted r).id = rootId from hrid]
    exact hy
  have hd3self : getTaskById db3 rootId = some (markDeleted r) := by
    have h := getTaskById_save_self db2 (markDeleted r)
    rwa [show (markDeleted r).id = rootId from hrid] at h
  set act := Action.delete rootId (rootId :: sub) with hact
  set s1 := recordAction { s with tasks := db3 } act with hs1
  have hs1tasks : s1.tasks = db3 := by
    rw [hs1]
    rfl
  have hdelrun : deleteTask s rootId true = Except.ok (s1, rootId :: sub) := by
    rw [hs1, hact]
    unfold deleteTask
    simp only [hroot]
    rw [if_pos trivial]
    rw [← hF]
    simp only [hrun]
  obtain ⟨l', hl0⟩ := recordAction_head { s with tasks := db3 } act
  have hs1stack : s1.undoStack = act :: l' := by
    rw [hs1]
    exact hl0
  have hmarks : ∀ x ∈ sub, ∀ tx, getTaskById s.tasks x = some tx →
      getTaskById db3 x = some (markDeleted tx) := by
    intro x hx tx htx
    have hxroot : x ≠ rootId := fun hE => hrootSub (hE ▸ hx)
    have hxp : ∀ p, r.parentTaskId = some p → x ≠ p := by
      intro p hp hE
      exact (hparent p hp).1 (by rw [← hE]; exact List.mem_cons_of_mem _ hx)
    rw [hd3other x hxroot, hd2frame x hxp]
    exact h2 x hx tx htx
  have hrootdel : ∀ tp, getTaskById db3 rootId = some tp →
      tp.deleted = true := by
    intro tp htp
    rw [hd3self] at htp
    injection htp with hh
    rw [← hh]
    rfl
  obtain ⟨haU, hbU⟩ :=
    restore_fold_spec F s.tasks rootId r.childTaskIds db3 hcasc hndSub
      hrootSub hmarks hrootdel
  rw [← hsubdef] at haU hbU
  set Da := sub.reverse.foldl restoreTaskWithoutHistory db3 with hDadef
  have hDaRoot : getTaskById Da rootId = some (markDeleted r) := by
    rw [haU rootId hrootSub]
    exact hd3self
  set Df := restoreTaskWithoutHistory Da rootId with hDfdef
  have hfold :
      (rootId :: sub).reverse.foldl restoreTaskWithoutHistory s1.tasks
        = Df := by
    rw [hs1tasks, List.reverse_cons, List.foldl_append]
    simp only [List.foldl_cons, List.foldl_nil]
  have hr : undoReplay s1.tasks act = Except.ok Df := by
    rw [hact]
    simp only [undoReplay]
    rw [hfold]
  set X := clearDeleted (markDeleted r) with hXdef
  have hXid : X.id = rootId := hrid
  set DbB := save Da X with hDbB
  have hDbBother : ∀ y, y ≠ rootId →
      getTaskById DbB y = getTaskById Da y := by
    intro y hy
    apply getTaskById_save_other
    rw [hXid]
    exact hy
  have hDbBself : getTaskById DbB rootId = some X := by
    have h := getTaskById_save_self Da X
    rwa [hXid] at h
  set s2 : Store := { s1 with tasks := Df, undoStack := l', redoStack := act :: s1.redoStack } with hs2
  have hundo : undo s1 = Except.ok s2 := by
    rw [undo_cons hs1stack hr, hs2]
  have hOuter : ∀ y, y ∉ sub → y ≠ rootId →
      (∀ p, r.parentTaskId = some p → y ≠ p) →
      getTaskById Da y = getTaskById s.tasks y := by
    intro y hy hyr hyp
    rw [haU y hy, hd3other y hyr, hd2frame y hyp, h1 y hy hyr]
  have hmain : ∀ y : Nat,
      (getTaskById Df y = none ↔ getTaskById s.tasks y = none) ∧
      (∀ t2 t0, getTaskById Df y = some t2 →
        getTaskById s.tasks y = some t0 →
        t2.deleted = t0.deleted ∧
        (t0.deleted = false →
          t2.id = t0.id ∧ t2.parentTaskId = t0.parentTaskId ∧
            t2.status = t0.status ∧
            (∀ c, c ∈ t2.childTaskIds ↔ c ∈ t0.childTaskIds))) := by
    have hcaseRoot : ∀ (E : List Task), getTaskById E rootId = some X →
        (getTaskById E rootId = none ↔ getTaskById s.tasks rootId = none) ∧
        (∀ t2 t0, getTaskById E rootId = some t2 →
          getTaskById s.tasks rootId = some t0 →
          t2.deleted = t0.deleted ∧
          (t0.deleted = false →
            t2.id = t0.id ∧ t2.parentTaskId = t0.parentTaskId ∧
              t2.status = t0.status ∧
              (∀ c, c ∈ t2.childTaskIds ↔ c ∈ t0.childTaskIds))) := by
      intro E hE
      constructor
      · rw [hE, hroot]
        simp
      · intro t2 t0 h2' h0'
        rw [hE] at h2'
        rw [hroot] at h0'
        have ht2 : t2 = X := (Option.some.inj h2').symm
        have ht0 : t0 = r := (Option.some.inj h0').symm
        rw [ht2, ht0]
        refine ⟨by rw [hXdef]; simp [clearDeleted, markDeleted, hrdel], ?_⟩
        intro hlive
        exact ⟨rfl, rfl, rfl, fun c => Iff.rfl⟩
    have hcaseSub : ∀ (E : List Task) (y : Nat), y ∈ sub →
        (∀ z ∈ sub, getTaskById E z = getTaskById Da z) →
        (getTaskById E y = none ↔ getTaskById s.tasks y = none) ∧
        (∀ t2 t0, getTaskById E y = some t2 →
          getTaskById s.tasks y = some t0 →
          t2.deleted = t0.deleted ∧
          (t0.deleted = false →
            t2.id = t0.id ∧ t2.parentTaskId = t0.parentTaskId ∧
              t2.status = t0.status ∧
              (∀ c, c ∈ t2.childTaskIds ↔ c ∈ t0.childTaskIds))) := by
      intro E y hy hagree
      obtain ⟨tx, htx, htxdel, -⟩ :=
        cascade_members F s.tasks (some rootId) r.childTaskIds hcasc hndSub
          y hy
      have hEy : getTaskById E y = some (clearDeleted tx) := by
        rw [hagree y hy]
        exact hbU y hy tx htx
      constructor
      · rw [hEy, htx]
        simp
      · intro t2 t0 h2' h0'
        rw [hEy] at h2'
        rw [htx] at h0'
        have ht2 : t2 = clearDeleted tx := (Option.some.inj h2').symm
        have ht0 : t0 = tx := (Option.some.inj h0').symm
        rw [ht2, ht0]
        refine ⟨by simp [clearDeleted, htxdel], ?_⟩
        intro hlive
        exact ⟨rfl, rfl, rfl, fun c => Iff.rfl⟩
    have hcaseId : ∀ (E : List Task) (y : Nat),
        getTaskById E y = getTaskById s.tasks y →
        (getTaskById E y = none ↔ getTaskById s.tasks y = none) ∧
        (∀ t2 t0, getTaskById E y = some t2 →
          getTaskById s.tasks y = some t0 →
          t2.deleted = t0.deleted ∧
          (t0.deleted = false →
            t2.id = t0.id ∧ t2.parentTaskId = t0.parentTaskId ∧
              t2.status = t0.status ∧
              (∀ c, c ∈ t2.childTaskIds ↔ c ∈ t0.childTaskIds))) := by
      intro E y hEq
      constructor
      · rw [hEq]
      · intro t2 t0 h2' h0'
        rw [hEq, h0'] at h2'
        have ht2 : t2 = t0 := (Option.some.inj h2').symm
        rw [ht2]
        exact ⟨rfl, fun hlive => ⟨rfl, rfl, rfl, fun c => Iff.rfl⟩⟩
    cases hrp : r.parentTaskId with
    | none =>
      have hDfEq : Df = DbB := by
        rw [hDfdef]
        unfold restoreTaskWithoutHistory
        simp only [hDaRoot]
        rw [if_neg (by simp [markDeleted])]
        simp only [show (markDeleted r).parentTaskId = r.parentTaskId from rfl,
          hrp]
      intro y
      by_cases hyr : y = rootId
      · rw [hyr]
        exact hcaseRoot Df (by rw [hDfEq]; exact hDbBself)
      · by_cases hys : y ∈ sub
        · refine hcaseSub Df y hys ?_
          intro z hz
          rw [hDfEq]
          exact hDbBother z (fun hE => hrootSub (hE ▸ hz))
        · refine hcaseId Df y ?_
          rw [hDfEq, hDbBother y hyr]
          refine hOuter y hys hyr ?_
          intro p' hp'
          rw [hrp] at hp'
          exact Option.noConfusion hp'
    | some p =>
      obtain ⟨hpIds, hpReat⟩ := hparent p hrp
      rw [List.mem_cons] at hpIds
      push_neg at hpIds
      obtain ⟨hpRoot, hpSub⟩ := hpIds
      have hd1p : getTaskById db1 p = getTaskById s.tasks p :=
        h1 p hpSub hpRoot
      cases hsp : getTaskById s.tasks p with
      | none =>
        have hdb2Eq : db2 = db1 := by
          rw [hdb2]
          unfold detachFromOldParent
          simp only [hrp]
          simp only [hd1p, hsp]
        have hDap : getTaskById Da p = none := by
          rw [haU p hpSub, hd3other p hpRoot, hdb2Eq, hd1p, hsp]
        have hDbBp0 : getTaskById DbB p = none := by
          rw [hDbBother p hpRoot, hDap]
        have hDfEq : Df = DbB := by
          rw [hDfdef]
          unfold restoreTaskWithoutHistory
          simp only [hDaRoot]
          rw [if_neg (by simp [markDeleted])]
          simp only [show (markDeleted r).parentTaskId = r.parentTaskId from
            rfl, hrp]
          rw [← hXdef, ← hDbB]
          simp only [hDbBp0]
        intro y
        by_cases hyr : y = rootId
        · rw [hyr]
          exact hcaseRoot Df (by rw [hDfEq]; exact hDbBself)
        · by_cases hys : y ∈ sub
          · refine hcaseSub Df y hys ?_
            intro z hz
            rw [hDfEq]
            exact hDbBother z (fun hE => hrootSub (hE ▸ hz))
          · by_cases hyp : y = p
            · rw [hyp]
              refine hcaseId Df p ?_
              rw [hDfEq, hDbBother p hpRoot, hDap, hsp]
            · refine hcaseId Df y ?_
              rw [hDfEq, hDbBother y hyr]
              refine hOuter y hys hyr ?_
              intro p' hp'
              rw [hrp] at hp'
              injection hp' with hp''
              rw [← hp'']
              exact hyp
      | some tp =>
        have htpid : tp.id = p := getTaskById_some_id hsp
        set tpF : Task :=
          { tp with
            childTaskIds := tp.childTaskIds.filter (fun i => i != r.id) }
          with htpF
        have hdb2Eq : db2 = save db1 tpF := by
          rw [hdb2]
          unfold detachFromOldParent
          simp only [hrp]
          simp only [hd1p, hsp]
        have hDap : getTaskById Da p = some tpF := by
          rw [haU p hpSub, hd3other p hpRoot, hdb2Eq]
          have h := getTaskById_save_self db1 tpF
          rwa [show tpF.id = p from htpid] at h
        have hDbBp : getTaskById DbB p = some tpF := by
          rw [hDbBother p hpRoot, hDap]
        have hnocontain : tpF.childTaskIds.contains rootId = false := by
          show (tp.childTaskIds.filter (fun i => i != r.id)).contains rootId
            = false
          rw [hrid]
          exact filter_ne_contains_eq_false _ _
        by_cases htpdel : tp.deleted = true
        · have hcneg :
              ¬((!tpF.deleted && !tpF.childTaskIds.contains rootId) = true) := by
            intro hcontra
            rw [show tpF.deleted = true from htpdel] at hcontra
            simp at hcontra
          have hDfEq : Df = DbB := by
            rw [hDfdef]
            unfold restoreTaskWithoutHistory
            simp only [hDaRoot]
            rw [if_neg (by simp [markDeleted])]
            simp only [show (markDeleted r).parentTaskId = r.parentTaskId from
              rfl, hrp]
            rw [← hXdef, ← hDbB]
            simp only [hDbBp]
            rw [if_neg hcneg]
          intro y
          by_cases hyr : y = rootId
          · rw [hyr]
            exact hcaseRoot Df (by rw [hDfEq]; exact hDbBself)
          · by_cases hys : y ∈ sub
            · refine hcaseSub Df y hys ?_
              intro z hz
              rw [hDfEq]
              exact hDbBother z (fun hE => hrootSub (hE ▸ hz))
            · by_cases hyp : y = p
              · rw [hyp]
                constructor
                · rw [hDfEq, hDbBp, hsp]
                  simp
                · intro t2 t0 h2' h0'
                  rw [hDfEq, hDbBp] at h2'
                  rw [hsp] at h0'
                  have ht2 : t2 = tpF := (Option.some.inj h2').symm
                  have ht0 : t0 = tp := (Option.some.inj h0').symm
                  rw [ht2, ht0]
                  refine ⟨rfl, ?_⟩
                  intro hfalse
                  rw [hfalse] at htpdel
                  simp at htpdel
              · refine hcaseId Df y ?_
                rw [hDfEq, hDbBother y hyr]
                refine hOuter y hys hyr ?_
                intro p' hp'
                rw [hrp] at hp'
                injection hp' with hp''
                rw [← hp'']
                exact hyp
        · have htpdel' : tp.deleted = false := by
            cases hD : tp.deleted
            · rfl
            · exact absurd hD htpdel
          have hreat : rootId ∈ tp.childTaskIds := hpReat tp hsp htpdel'
          set tpR : Task :=
            { tpF with childTaskIds := tpF.childTaskIds ++ [rootId] }
            with htpR
          have hcond :
              (!tpF.deleted && !tpF.childTaskIds.contains rootId) = true := by
            have hD : tpF.deleted = false := htpdel'
            rw [hD, hnocontain]
            rfl
          have hDfEq : Df = save DbB tpR := by
            rw [hDfdef]
            unfold restoreTaskWithoutHistory
            simp only [hDaRoot]
            rw [if_neg (by simp [markDeleted])]
            simp only [show (markDeleted r).parentTaskId = r.parentTaskId from
              rfl, hrp]
            rw [← hXdef, ← hDbB]
            simp only [hDbBp]
            rw [if_pos hcond]
          have hDfp : getTaskById Df p = some tpR := by
            rw [hDfEq]
            have h := getTaskById_save_self DbB tpR
            rwa [show tpR.id = p from htpid] at h
          have hDfother : ∀ y, y ≠ p →
              getTaskById Df y = getTaskById DbB y := by
            intro y hy
            rw [hDfEq]
            apply getTaskById_save_other
            rw [show tpR.id = p from htpid]
            exact hy
          intro y
          by_cases hyp : y = p
          · rw [hyp]
            constructor
            · rw [hDfp, hsp]
              simp
            · intro t2 t0 h2' h0'
              rw [hDfp] at h2'
              rw [hsp] at h0'
              have ht2 : t2 = tpR := (Option.some.inj h2').symm
              have ht0 : t0 = tp := (Option.some.inj h0').symm
              rw [ht2, ht0]
              refine ⟨rfl, ?_⟩
              intro hlive
              refine ⟨rfl, rfl, rfl, ?_⟩
              intro c
              show c ∈ tp.childTaskIds.filter (fun i => i != r.id) ++ [rootId]
                ↔ c ∈ tp.childTaskIds
              rw [hrid]
              constructor
              · intro hc
                rcases List.mem_append.mp hc with hc1 | hc1
                · exact (List.mem_filter.mp hc1).1
                · have hcr : c = rootId := by simpa using hc1
                  rw [hcr]
                  exact hreat
              · intro hc
                by_cases hcr : c = rootId
                · subst hcr
                  exact List.mem_append.mpr (Or.inr (by simp))
                · refine List.mem_append.mpr (Or.inl ?_)
                  exact List.mem_filter.mpr ⟨hc, by simpa using hcr⟩
          · by_cases hyr : y = rootId
            · rw [hyr]
              exact hcaseRoot Df
                (by rw [hDfother rootId (Ne.symm hpRoot)]; exact hDbBself)
            · by_cases hys : y ∈ sub
              · refine hcaseSub Df y hys ?_
                intro z hz
                rw [hDfother z (fun hE => hpSub (hE ▸ hz)),
                  hDbBother z (fun hE => hrootSub (hE ▸ hz))]
              · refine hcaseId Df y ?_
                rw [hDfother y hyp, hDbBother y hyr]
                refine hOuter y hys hyr ?_
                intro p' hp'
                rw [hrp] at hp'
                injection hp' with hp''
                rw [← hp'']
                exact hyp
  have hmem : ∀ x ∈ (rootId :: sub), x ≠ rootId →
      ∃ tx px, getTaskById s.tasks x = some tx ∧ tx.parentTaskId = some px ∧
        px ∈ (rootId :: sub) ∧ px ≠ x := by
    intro x hx hxr
    have hxs : x ∈ sub := by
      rcases List.mem_cons.mp hx with hE | hE
      · exact absurd hE hxr
      · exact hE
    obtain ⟨tx, htx, -, hor⟩ :=
      cascade_members F s.tasks (some rootId) r.childTaskIds hcasc hndSub
        x hxs
    rcases hor with hE | ⟨q, hq, hpq, hqx⟩
    · exact ⟨tx, rootId, htx, hE, List.mem_cons_self _ _, Ne.symm hxr⟩
    · exact ⟨tx, q, htx, hpq, List.mem_cons_of_mem _ hq, hqx⟩
  have hpair : (rootId :: sub).Pairwise
      (fun a b => ∀ ta, getTaskById s.tasks a = some ta →
        ta.parentTaskId ≠ some b) := by
    rw [List.pairwise_cons]
    constructor
    · intro b hb ta hta
      rw [hroot] at hta
      have hh : ta = r := (Option.some.inj hta).symm
      rw [hh]
      cases hrp2 : r.parentTaskId with
      | none => simp [hrp2]
      | some p =>
        obtain ⟨hpIds2, -⟩ := hparent p hrp2
        intro hE2
        injection hE2 with hE3
        apply hpIds2
        rw [hE3]
        exact List.mem_cons_of_mem _ hb
    · exact cascade_pairwise F s.tasks rootId r.childTaskIds hcasc hndSub
        hrootSub
  exact ⟨s1, s2, hdelrun, hundo, hmain, hmem, hpair⟩

/-- Witness for the amended C2: the concrete two-task store `c2w` (live root
1 holding live child 2) satisfies every hypothesis, and the cascade delete
of task 1 followed by undo round-trips there. -/
theorem c2_amended_cascade_delete_undo_roundtrip_witness :
    getTaskById c2w.tasks 1 = some c2wR ∧
    c2wR.deleted = false ∧
    cascadeOk (deleteFuel c2w.tasks) c2w.tasks (some 1) c2wR.childTaskIds
      = true ∧
    (1 :: subtreeMany (deleteFuel c2w.tasks) c2w.tasks c2wR.childTaskIds).Nodup ∧
    (∃ s1 s2,
      deleteTask c2w 1 true
        = Except.ok (s1,
            1 :: subtreeMany (deleteFuel c2w.tasks) c2w.tasks c2wR.childTaskIds) ∧
      undo s1 = Except.ok s2 ∧
      (∀ y : Nat,
        (getTaskById s2.tasks y = none ↔ getTaskById c2w.tasks y = none) ∧
        (∀ t2 t0, getTaskById s2.tasks y = some t2 →
          getTaskById c2w.tasks y = some t0 →
          t2.deleted = t0.deleted ∧
          (t0.deleted = false →
            t2.id = t0.id ∧ t2.parentTaskId = t0.parentTaskId ∧
              t2.status = t0.status ∧
              (∀ c, c ∈ t2.childTaskIds ↔ c ∈ t0.childTaskIds)))) ∧
      (∀ x ∈ (1 ::
          subtreeMany (deleteFuel c2w.tasks) c2w.tasks c2wR.childTaskIds),
        x ≠ 1 →
        ∃ tx px, getTaskById c2w.tasks x = some tx ∧
          tx.parentTaskId = some px ∧
          px ∈ (1 ::
            subtreeMany (deleteFuel c2w.tasks) c2w.tasks c2wR.childTaskIds) ∧
          px ≠ x) ∧
      (1 ::
        subtreeMany (deleteFuel c2w.tasks) c2w.tasks c2wR.childTaskIds).Pairwise
        (fun a b => ∀ ta, getTaskById c2w.tasks a = some ta →
          ta.parentTaskId ≠ some b)) :=
  ⟨rfl, rfl, rfl, by decide,
    c2_amended_cascade_delete_undo_roundtrip c2w 1 c2wR rfl rfl rfl
      (by decide) (fun p hp => Option.noConfusion hp)⟩

end Silverlake
